import Mathlib

/-!
Verification of the semantic chunking core of `semantic_chunker.py`
(class `SemanticChunker`).  Strings are modelled as `List Char`; the
module-level size constants become an explicit `Thresholds` record
(`default_thresholds` mirrors the source constants); the regular
expressions used by the source are modelled as hand-rolled matchers with
Python's leftmost, greedy-with-backtracking semantics.  Character classes
(`\s`, `str.isupper`, `str.strip`) are modelled at their ASCII meaning.
-/

abbrev Str := List Char

/-- Python `\s` (and the characters removed by `str.strip()`), ASCII part. -/
def isSpaceP (c : Char) : Bool :=
  c = ' ' || c = '\t' || c = '\n' || c = '\r' || c = '\x0b' || c = '\x0c'

def isHashC (c : Char) : Bool := c = '#'

def isDigitP (c : Char) : Bool := '0' ≤ c && c ≤ '9'

/-- `[IVXLCDM]` under `re.IGNORECASE`. -/
def isRomanCI (c : Char) : Bool :=
  c = 'I' || c = 'V' || c = 'X' || c = 'L' || c = 'C' || c = 'D' || c = 'M' ||
  c = 'i' || c = 'v' || c = 'x' || c = 'l' || c = 'c' || c = 'd' || c = 'm'

/-- ASCII uppercase letter, the `[A-Z]` class (case sensitive). -/
def isUpperAZ (c : Char) : Bool := 'A' ≤ c && c ≤ 'Z'

def isLowerAZ (c : Char) : Bool := 'a' ≤ c && c ≤ 'z'

/-- `[A-Z]` under `re.IGNORECASE`: any ASCII letter. -/
def isLetterAZCI (c : Char) : Bool := isUpperAZ c || isLowerAZ c

/-- The dash alternatives `[-–—]` of the source patterns. -/
def isDashC (c : Char) : Bool := c = '-' || c = '–' || c = '—'

/-- The optional punctuation class `[.:\-–—]` of the Rule pattern. -/
def isRulePunct (c : Char) : Bool := c = '.' || c = ':' || isDashC c

/-- `[A-Z\s,\-()]` under `re.IGNORECASE` (title tail class of pattern 3). -/
def isTitleClsCI (c : Char) : Bool :=
  isLetterAZCI c || isSpaceP c || c = ',' || c = '-' || c = '(' || c = ')'

/-- `[A-Za-z\s,\-()]` (title tail class of the Section pattern). -/
def isSectClsCS (c : Char) : Bool :=
  isUpperAZ c || isLowerAZ c || isSpaceP c || c = ',' || c = '-' || c = '(' || c = ')'

def toLowerA (c : Char) : Char :=
  if isUpperAZ c then Char.ofNat (c.toNat + 32) else c

/-- Case-insensitive character comparison (ASCII). -/
def chEqCI (a b : Char) : Bool := toLowerA a = toLowerA b

/-- Python `str.strip()` from the left. -/
def stripL (s : Str) : Str := s.dropWhile isSpaceP

/-- Python `str.strip()`. -/
def strip (s : Str) : Str := ((s.dropWhile isSpaceP).reverse.dropWhile isSpaceP).reverse

/-- Python `text[a:b]` (with `0 ≤ a ≤ b` usage in the source). -/
def pySlice (a b : Nat) (s : Str) : Str := (s.drop a).take (b - a)

/-- Python `text.split('\n\n')`, accumulator holds the current piece reversed. -/
def splitSepAux : Str → Str → List Str
  | acc, '\n' :: '\n' :: rest => acc.reverse :: splitSepAux [] rest
  | acc, c :: rest => splitSepAux (c :: acc) rest
  | acc, [] => [acc.reverse]

def splitSep (s : Str) : List Str := splitSepAux [] s

/-- The `"\n\n"` separator used to join chunks. -/
def sep2 : Str := ['\n', '\n']

/-- Join a list of pieces with the `"\n\n"` separator. -/
def joinSep : List Str → Str
  | [] => []
  | [p] => p
  | p :: ps => p ++ sep2 ++ joinSep ps

/-- Is `pat` a prefix of `s`? -/
def prefixCheck : Str → Str → Bool
  | [], _ => true
  | _ :: _, [] => false
  | a :: as, b :: bs => a = b && prefixCheck as bs

/-- Does `pat` occur as a contiguous substring of `s`? -/
def subCheck (pat : Str) : Str → Bool
  | [] => prefixCheck pat []
  | s@(_ :: rest) => prefixCheck pat s || subCheck pat rest

/-- Python `text.find('\n', i)`: index of the first `'\n'` at position `≥ i`. -/
def findNlFrom (s : Str) (i : Nat) : Option Nat :=
  match (s.drop i).findIdx? (· = '\n') with
  | some j => some (i + j)
  | none => none

/-- Non-whitespace projection: a string modulo whitespace normalization. -/
def nw (s : Str) : Str := s.filter (fun c => !isSpaceP c)

def nwConcat (cs : List Str) : Str := (cs.map nw).flatten

/-! ### Matchers for the source's regular expressions

Each matcher follows Python `re` semantics for its concrete pattern:
leftmost match attempt at the given position, greedy (`*`, `+`) or lazy
(`+?`) quantifiers with backtracking.  A matcher receives the suffix of
the text starting at the attempt position and returns, on success, the
remaining suffix after the match together with the captured groups. -/

/-- Result of a match attempt: remaining suffix, group 1, group 2. -/
abbrev PRes := Option (Str × Option Str × Option Str)

/-- Match one character of class `p`. -/
def pCh (p : Char → Bool) (s : Str) (k : Str → PRes) : PRes :=
  match s with
  | c :: r => if p c then k r else none
  | [] => none

/-- Greedy `p*`: consume as many class characters as possible, backtracking. -/
def starGreedy (p : Char → Bool) : Str → (Str → PRes) → PRes
  | [], k => k []
  | c :: r, k =>
    if p c then
      match starGreedy p r k with
      | some res => some res
      | none => k (c :: r)
    else k (c :: r)

/-- Greedy `p+`. -/
def plusGreedy (p : Char → Bool) (s : Str) (k : Str → PRes) : PRes :=
  match s with
  | c :: r => if p c then starGreedy p r k else none
  | [] => none

/-- Lazy `p+?`: consume as few class characters as possible, extending on failure. -/
def plusLazy (p : Char → Bool) : Str → (Str → PRes) → PRes
  | [], _ => none
  | c :: r, k =>
    if p c then
      match k r with
      | some res => some res
      | none => plusLazy p r k
    else none

/-- Greedy `e?` for a sub-matcher `sub`. -/
def optGreedy (sub : Str → (Str → PRes) → PRes) (s : Str) (k : Str → PRes) : PRes :=
  match sub s k with
  | some res => some res
  | none => k s

/-- Case-insensitive literal. -/
def pLitCI : Str → Str → (Str → PRes) → PRes
  | [], s, k => k s
  | c :: cs, s, k => pCh (fun x => chEqCI x c) s (fun r => pLitCI cs r k)

/-- Case-sensitive literal. -/
def pLitCS : Str → Str → (Str → PRes) → PRes
  | [], s, k => k s
  | c :: cs, s, k => pCh (fun x => x = c) s (fun r => pLitCS cs r k)

/-- Captured slice: the part of `s` consumed down to remaining suffix `r`. -/
def capture (s r : Str) : Str := s.take (s.length - r.length)

/-- Pattern 1, `\n#+\s*ORDER\s+([IVXLCDM]+)\s*\n` (IGNORECASE). -/
def p1Try (s0 : Str) : PRes :=
  pCh (· = '\n') s0 fun s1 =>
  plusGreedy isHashC s1 fun s2 =>
  starGreedy isSpaceP s2 fun s3 =>
  pLitCI ('O' :: 'R' :: 'D' :: 'E' :: 'R' :: []) s3 fun s4 =>
  plusGreedy isSpaceP s4 fun s5 =>
  plusGreedy isRomanCI s5 fun s6 =>
  starGreedy isSpaceP s6 fun s7 =>
  pCh (· = '\n') s7 fun s8 =>
  some (s8, some (capture s5 s6), none)

/-- Pattern 2, `\n\s*ORDER\s+([IVXLCDM]+)\s*[-–—]?\s*\n` (IGNORECASE). -/
def p2Try (s0 : Str) : PRes :=
  pCh (· = '\n') s0 fun s1 =>
  starGreedy isSpaceP s1 fun s2 =>
  pLitCI ('O' :: 'R' :: 'D' :: 'E' :: 'R' :: []) s2 fun s3 =>
  plusGreedy isSpaceP s3 fun s4 =>
  plusGreedy isRomanCI s4 fun s5 =>
  starGreedy isSpaceP s5 fun s6 =>
  optGreedy (pCh isDashC) s6 fun s7 =>
  starGreedy isSpaceP s7 fun s8 =>
  pCh (· = '\n') s8 fun s9 =>
  some (s9, some (capture s4 s5), none)

/-- Pattern 3, `\n#+?\s*ORDER\s+([IVXLCDM]+)\s*[-–—]?\s*([A-Z][A-Z\s,\-()]+?)(?=\n)`
(IGNORECASE); the trailing lookahead requires but does not consume a `'\n'`. -/
def p3Try (s0 : Str) : PRes :=
  pCh (· = '\n') s0 fun s1 =>
  plusLazy isHashC s1 fun s2 =>
  starGreedy isSpaceP s2 fun s3 =>
  pLitCI ('O' :: 'R' :: 'D' :: 'E' :: 'R' :: []) s3 fun s4 =>
  plusGreedy isSpaceP s4 fun s5 =>
  plusGreedy isRomanCI s5 fun s6 =>
  starGreedy isSpaceP s6 fun s7 =>
  optGreedy (pCh isDashC) s7 fun s8 =>
  starGreedy isSpaceP s8 fun s9 =>
  pCh isLetterAZCI s9 fun s10 =>
  plusLazy isTitleClsCI s10 fun s11 =>
  match s11 with
  | '\n' :: _ => some (s11, some (capture s5 s6), some (capture s9 s11))
  | _ => none

/-- Rule pattern, `\n\s*(\d+\.?\s+)?Rule\s+(\d+[A-Z]?)\s*[.:\-–—]?\s*` (IGNORECASE). -/
def ruleTry (s0 : Str) : PRes :=
  pCh (· = '\n') s0 fun s1 =>
  starGreedy isSpaceP s1 fun s2 =>
  optGreedy
    (fun s k =>
      plusGreedy isDigitP s fun t =>
      optGreedy (pCh (· = '.')) t fun u =>
      plusGreedy isSpaceP u k) s2 fun s3 =>
  pLitCI ('R' :: 'u' :: 'l' :: 'e' :: []) s3 fun s4 =>
  plusGreedy isSpaceP s4 fun s5 =>
  plusGreedy isDigitP s5 fun s6 =>
  optGreedy (pCh isLetterAZCI) s6 fun s7 =>
  starGreedy isSpaceP s7 fun s8 =>
  optGreedy (pCh isRulePunct) s8 fun s9 =>
  starGreedy isSpaceP s9 fun s10 =>
  some (s10,
    (if capture s2 s3 = [] then none else some (capture s2 s3)),
    some (capture s5 s7))

/-- RULES header pattern, `\n#+?\s*RULES\s*\n` (IGNORECASE). -/
def rulesHeaderTry (s0 : Str) : PRes :=
  pCh (· = '\n') s0 fun s1 =>
  plusLazy isHashC s1 fun s2 =>
  starGreedy isSpaceP s2 fun s3 =>
  pLitCI ('R' :: 'U' :: 'L' :: 'E' :: 'S' :: []) s3 fun s4 =>
  starGreedy isSpaceP s4 fun s5 =>
  pCh (· = '\n') s5 fun s6 =>
  some (s6, none, none)

/-- Numbered-item pattern, `\n\s*(\d+)\.\s+`. -/
def numberedTry (s0 : Str) : PRes :=
  pCh (· = '\n') s0 fun s1 =>
  starGreedy isSpaceP s1 fun s2 =>
  plusGreedy isDigitP s2 fun s3 =>
  pCh (· = '.') s3 fun s4 =>
  plusGreedy isSpaceP s4 fun s5 =>
  some (s5, some (capture s2 s3), none)

/-- Section pattern,
`\n\s*(?:Section\s+)?(\d+[A-Z]?)\s*[.:\-–—]\s*([A-Z][A-Za-z\s,\-()]+?)(?=\n)`
(case sensitive, MULTILINE only). -/
def sectionTry (s0 : Str) : PRes :=
  pCh (· = '\n') s0 fun s1 =>
  starGreedy isSpaceP s1 fun s2 =>
  optGreedy
    (fun s k =>
      pLitCS ('S' :: 'e' :: 'c' :: 't' :: 'i' :: 'o' :: 'n' :: []) s fun t =>
      plusGreedy isSpaceP t k) s2 fun s3 =>
  plusGreedy isDigitP s3 fun s4 =>
  optGreedy (pCh isUpperAZ) s4 fun s5 =>
  starGreedy isSpaceP s5 fun s6 =>
  pCh isRulePunct s6 fun s7 =>
  starGreedy isSpaceP s7 fun s8 =>
  pCh isUpperAZ s8 fun s9 =>
  plusLazy isSectClsCS s9 fun s10 =>
  match s10 with
  | '\n' :: _ => some (s10, some (capture s3 s5), some (capture s8 s10))
  | _ => none

/-! ### `re.finditer` -/

/-- One regex match: absolute start and end offsets, captured groups. -/
structure RMatch where
  start : Nat
  stop : Nat
  g1 : Option Str
  g2 : Option Str
  deriving DecidableEq, Repr

/-- `re.finditer` over the suffix `s` of the text that begins at absolute
position `pos`: scan left to right, at each position attempt the matcher,
continue after each (non-overlapping) match; an empty match advances by one.
Structural recursion on `fuel`; every step strictly shortens `s`, so
`fuel = s.length` suffices (each matcher only ever returns a suffix of its
input, and the scan also guards against a misbehaving one). -/
def finditerAux (tryM : Str → PRes) : (fuel : Nat) → (s : Str) → (pos : Nat) → List RMatch
  | 0, _, _ => []
  | _ + 1, [], _ => []
  | fuel + 1, c :: rest, pos =>
    match tryM (c :: rest) with
    | some (rem, g1, g2) =>
      let len := (c :: rest).length - rem.length
      if len = 0 then
        { start := pos, stop := pos, g1 := g1, g2 := g2 } ::
          finditerAux tryM fuel rest (pos + 1)
      else
        { start := pos, stop := pos + len, g1 := g1, g2 := g2 } ::
          finditerAux tryM fuel rem (pos + len)
    | none => finditerAux tryM fuel rest (pos + 1)

def finditer (tryM : Str → PRes) (text : Str) : List RMatch :=
  finditerAux tryM text.length text 0

/-! ### The chunking pipeline

Each definition mirrors one method of `SemanticChunker`; the module-level
size constants become the explicit `Thresholds` record, with
`default_thresholds` holding the source's values. -/

def MIN_CHUNK_SIZE : Nat := 500

def MAX_CHUNK_SIZE : Nat := 8000

def RULE_SPLIT_THRESHOLD : Nat := 5000

structure Thresholds where
  minChunkSize : Nat
  maxChunkSize : Nat
  ruleSplitThreshold : Nat
  deriving Repr

def default_thresholds : Thresholds :=
  { minChunkSize := MIN_CHUNK_SIZE
    maxChunkSize := MAX_CHUNK_SIZE
    ruleSplitThreshold := RULE_SPLIT_THRESHOLD }

/-- The boundary record built by `_identify_order_boundaries`. -/
structure Boundary where
  number : Str
  title : Str
  start_pos : Nat
  end_pos : Nat
  full_heading : Str
  deriving DecidableEq, Repr

/-- Title fallback of `_identify_order_boundaries` (lines 100-111): inspect the
line right after the match; accept a markdown `##` sub-heading (hashes removed)
or a line whose first character is uppercase; otherwise no title. -/
def titleFromNextLine (text : Str) (matchEnd : Nat) : Str :=
  match findNlFrom text matchEnd with
  | some e =>
    let pt := strip (pySlice matchEnd e text)
    if prefixCheck ('#' :: '#' :: []) pt then strip (pt.filter (· ≠ '#'))
    else
      match pt with
      | c :: _ => if isUpperAZ c then pt else []
      | [] => []
  | none => []

def boundaryOfMatch (text : Str) (m : RMatch) (endPos : Nat) : Boundary :=
  let title0 : Str :=
    match m.g2 with
    | some t => if t = [] then [] else strip t
    | none => []
  { number := m.g1.getD []
    title := if title0 = [] then titleFromNextLine text m.stop else title0
    start_pos := m.start
    end_pos := endPos
    full_heading := strip (pySlice m.start m.stop text) }

/-- The per-match loop of `_identify_order_boundaries`: each record ends where
the next match starts; the last ends at the document length. -/
def mkBoundaries (text : Str) : List RMatch → List Boundary
  | [] => []
  | [m] => [boundaryOfMatch text m text.length]
  | m :: m2 :: rest => boundaryOfMatch text m m2.start :: mkBoundaries text (m2 :: rest)

/-- The pattern cascade of `_identify_order_boundaries`: pattern 1, then
pattern 2 if it had no match, then pattern 3. -/
def effectiveOrderMatches (text : Str) : List RMatch :=
  let m1 := finditer p1Try text
  if m1 ≠ [] then m1
  else
    let m2 := finditer p2Try text
    if m2 ≠ [] then m2
    else finditer p3Try text

def identify_order_boundaries (text : Str) : List Boundary :=
  mkBoundaries text (effectiveOrderMatches text)

/-- Loop body of `_split_by_paragraphs`: greedy paragraph packing into the
buffer `cur`. -/
def psGo (max_size : Nat) (cur : Str) : List Str → List Str
  | [] => if cur ≠ [] then [cur] else []
  | p0 :: ps =>
    let p := strip p0
    if p = [] then psGo max_size cur ps
    else if cur.length + p.length + 2 ≤ max_size then
      psGo max_size (if cur = [] then p else cur ++ sep2 ++ p) ps
    else
      (if cur ≠ [] then [cur] else []) ++ psGo max_size p ps

def split_by_paragraphs (text : Str) (max_size : Nat) : List Str :=
  psGo max_size [] (splitSep text)

/-- The synthetic context line `"ORDER <n> (continued)"`. -/
def contLine (order_num : Str) : Str :=
  "ORDER ".toList ++ order_num ++ " (continued)".toList

/-- Sub-boundary cascade of `_split_large_order`: the Rule pattern, then the
RULES-header pattern with numbered items beneath it (offsets made absolute,
as the source's `SimpleMatch` objects do). -/
def effectiveRuleMatches (order_text : Str) : List RMatch :=
  let ms := finditer ruleTry order_text
  if ms ≠ [] then ms
  else
    match finditer rulesHeaderTry order_text with
    | rm :: _ =>
      finditerAux numberedTry (order_text.drop rm.stop).length
        (order_text.drop rm.stop) rm.stop
    | [] => []

/-- `chunk_text` of one rule: the ORDER header on the first chunk, the
synthetic continuation line on every later one. -/
def ruleChunkOf (order_num header : Str) (first : Bool) (rule_text : Str) : Str :=
  if first then header ++ sep2 ++ rule_text
  else contLine order_num ++ sep2 ++ rule_text

/-- The per-match loop of `_split_large_order`: each rule runs to the next
match start (or the end of the unit). -/
def ruleChunkTextsGo (order_text order_num header : Str) (first : Bool) :
    List RMatch → List Str
  | [] => []
  | [m] =>
    [ruleChunkOf order_num header first
      (strip (pySlice m.start order_text.length order_text))]
  | m :: m2 :: rest =>
    ruleChunkOf order_num header first (strip (pySlice m.start m2.start order_text)) ::
      ruleChunkTextsGo order_text order_num header false (m2 :: rest)

/-- All `chunk_text` values `_split_large_order` builds, in order, before the
per-chunk size dispatch. -/
def rule_chunk_texts (order_text order_num : Str) : List Str :=
  match effectiveRuleMatches order_text with
  | [] => []
  | m0 :: ms =>
    ruleChunkTextsGo order_text order_num (strip (pySlice 0 m0.start order_text)) true
      (m0 :: ms)

def split_large_order (th : Thresholds) (order_text order_num : Str) : List Str :=
  if effectiveRuleMatches order_text = [] then
    split_by_paragraphs order_text th.maxChunkSize
  else
    ((rule_chunk_texts order_text order_num).map
      (fun ct =>
        if ct.length > th.maxChunkSize then split_by_paragraphs ct th.maxChunkSize
        else [ct])).flatten

def extract_order_chunks (th : Thresholds) (text : Str) (boundaries : List Boundary) :
    List Str :=
  (boundaries.map (fun b =>
    let order_text := strip (pySlice b.start_pos b.end_pos text)
    if order_text.length > th.ruleSplitThreshold then
      split_large_order th order_text b.number
    else [order_text])).flatten

/-- Size dispatch of `_chunk_by_sections` for one section. -/
def sectDispatch (th : Thresholds) (section_text : Str) : List Str :=
  if section_text.length > th.maxChunkSize then
    split_by_paragraphs section_text th.maxChunkSize
  else [section_text]

def sectGo (th : Thresholds) (text : Str) : List RMatch → List Str
  | [] => []
  | [m] => sectDispatch th (strip (pySlice m.start text.length text))
  | m :: m2 :: rest =>
    sectDispatch th (strip (pySlice m.start m2.start text)) ++ sectGo th text (m2 :: rest)

def chunk_by_sections (th : Thresholds) (text : Str) : List Str :=
  match finditer sectionTry text with
  | [] => split_by_paragraphs text th.maxChunkSize
  | m0 :: ms =>
    let sectionChunks := sectGo th text (m0 :: ms)
    let intro_text := strip (pySlice 0 m0.start text)
    if intro_text ≠ [] ∧ 100 < intro_text.length then
      split_by_paragraphs intro_text th.maxChunkSize ++ sectionChunks
    else sectionChunks

def handle_non_order_content (th : Thresholds) (full_text : Str)
    (order_boundaries : List Boundary) (existing_chunks : List Str) : List Str :=
  match order_boundaries with
  | [] => existing_chunks
  | b0 :: bs =>
    let preamble_text := strip (pySlice 0 b0.start_pos full_text)
    let chunks1 :=
      if preamble_text ≠ [] ∧ 100 < preamble_text.length then
        chunk_by_sections th preamble_text ++ existing_chunks
      else existing_chunks
    let appendix_text :=
      strip (pySlice ((b0 :: bs).getLast (by simp)).end_pos full_text.length full_text)
    if appendix_text ≠ [] ∧ 100 < appendix_text.length then
      chunks1 ++ chunk_by_sections th appendix_text
    else chunks1

/-- `validated_chunks[-1] += "\n\n" + current_merge`. -/
def appendToLast : List Str → Str → List Str
  | [], m => [m]
  | [x], m => [x ++ sep2 ++ m]
  | x :: y :: rest, m => x :: appendToLast (y :: rest) m

/-- Flush of the pending merge buffer in `_validate_and_merge_chunks`: an
under-sized buffer glues onto the previous validated chunk when one exists,
otherwise it is emitted standalone. -/
def flushMerge (th : Thresholds) (validated : List Str) (merge : Str) : List Str :=
  if merge.length < th.minChunkSize ∧ validated ≠ [] then appendToLast validated merge
  else validated ++ [merge]

/-- Loop of `_validate_and_merge_chunks` over the chunk sequence. -/
def vmGo (th : Thresholds) (validated : List Str) (merge : Str) : List Str → List Str
  | [] => if merge ≠ [] then flushMerge th validated merge else validated
  | c :: cs =>
    if strip c = [] then vmGo th validated merge cs
    else if c.length < th.minChunkSize then
      vmGo th validated (if merge = [] then c else merge ++ sep2 ++ c) cs
    else
      let validated' := if merge ≠ [] then flushMerge th validated merge else validated
      vmGo th (validated' ++ [c]) [] cs

def validate_and_merge_chunks (th : Thresholds) (chunks : List Str) : List Str :=
  vmGo th [] [] chunks

def fallback_chunking (text : Str) : List Str :=
  split_by_paragraphs text 1000

def chunk_document (th : Thresholds) (full_text : Str) : List Str :=
  let order_boundaries := identify_order_boundaries full_text
  if order_boundaries = [] then fallback_chunking full_text
  else
    validate_and_merge_chunks th
      (handle_non_order_content th full_text order_boundaries
        (extract_order_chunks th full_text order_boundaries))

/-! ### Positional facts about `finditer` -/

theorem finditerAux_mem_le (tryM : Str → PRes) :
    ∀ (fuel : Nat) (s : Str) (pos : Nat) (m : RMatch),
      m ∈ finditerAux tryM fuel s pos →
      pos ≤ m.start ∧ m.start ≤ m.stop ∧ m.stop ≤ pos + s.length := by
  intro fuel
  induction fuel with
  | zero => intro s pos m h; simp [finditerAux] at h
  | succ fuel ih =>
    intro s pos m h
    match s with
    | [] => simp [finditerAux] at h
    | c :: rest =>
      rw [finditerAux] at h
      cases htry : tryM (c :: rest) with
      | none =>
        rw [htry] at h
        have := ih rest (pos + 1) m h
        simp only [List.length_cons]
        omega
      | some res =>
        obtain ⟨rem, g1, g2⟩ := res
        rw [htry] at h
        simp only at h
        by_cases hlen : (c :: rest).length - rem.length = 0
        · rw [if_pos hlen] at h
          rcases List.mem_cons.mp h with hm | hm
          · subst hm; simp only [List.length_cons]; omega
          · have := ih rest (pos + 1) m hm
            simp only [List.length_cons]
            omega
        · rw [if_neg hlen] at h
          rcases List.mem_cons.mp h with hm | hm
          · subst hm
            simp only [List.length_cons] at hlen ⊢
            omega
          · have := ih rem (pos + ((c :: rest).length - rem.length)) m hm
            simp only [List.length_cons] at hlen this ⊢
            omega

/-- The matches of one `finditer` pass are ordered: starts strictly increase
and each match ends no later than the next one starts (non-overlapping). -/
theorem finditerAux_chain (tryM : Str → PRes) :
    ∀ (fuel : Nat) (s : Str) (pos : Nat),
      List.Chain' (fun a b => a.stop ≤ b.start ∧ a.start < b.start)
        (finditerAux tryM fuel s pos) := by
  intro fuel
  induction fuel with
  | zero => intro s pos; simp [finditerAux]
  | succ fuel ih =>
    intro s pos
    match s with
    | [] => simp [finditerAux]
    | c :: rest =>
      rw [finditerAux]
      cases htry : tryM (c :: rest) with
      | none => exact ih rest (pos + 1)
      | some res =>
        obtain ⟨rem, g1, g2⟩ := res
        simp only
        by_cases hlen : (c :: rest).length - rem.length = 0
        · rw [if_pos hlen]
          rw [List.chain'_cons']
          refine ⟨?_, ih rest (pos + 1)⟩
          intro b hb
          have hmem : b ∈ finditerAux tryM fuel rest (pos + 1) :=
            List.mem_of_mem_head? hb
          have := finditerAux_mem_le tryM fuel rest (pos + 1) b hmem
          simp only
          omega
        · rw [if_neg hlen]
          rw [List.chain'_cons']
          refine ⟨?_, ih rem (pos + ((c :: rest).length - rem.length))⟩
          intro b hb
          have hmem : b ∈ finditerAux tryM fuel rem
              (pos + ((c :: rest).length - rem.length)) :=
            List.mem_of_mem_head? hb
          have := finditerAux_mem_le tryM fuel rem
            (pos + ((c :: rest).length - rem.length)) b hmem
          simp only
          omega

/-! ### Boundary invariants (C5) -/

theorem mkBoundaries_chain (text : Str) :
    ∀ ms : List RMatch,
      List.Chain' (fun a b => a.stop ≤ b.start ∧ a.start < b.start) ms →
      List.Chain' (fun a b => a.start_pos < b.start_pos ∧ a.end_pos = b.start_pos)
        (mkBoundaries text ms) := by
  intro ms
  induction ms with
  | nil => intro _; simp [mkBoundaries]
  | cons m rest ih =>
    intro hch
    match rest with
    | [] => simp [mkBoundaries]
    | m2 :: rest2 =>
      rw [mkBoundaries]
      rw [List.chain'_cons'] at hch ⊢
      obtain ⟨hhd, htl⟩ := hch
      refine ⟨?_, ih htl⟩
      intro b hb
      have hm2 := hhd m2 (by simp)
      match rest2 with
      | [] =>
        simp [mkBoundaries] at hb
        subst hb
        simp [boundaryOfMatch]
        omega
      | m3 :: rest3 =>
        simp [mkBoundaries] at hb
        subst hb
        simp [boundaryOfMatch]
        omega

theorem mkBoundaries_getLast (text : Str) :
    ∀ (ms : List RMatch) (b : Boundary),
      (mkBoundaries text ms).getLast? = some b → b.end_pos = text.length := by
  intro ms
  induction ms with
  | nil => intro b hb; simp [mkBoundaries] at hb
  | cons m rest ih =>
    intro b hb
    match rest with
    | [] =>
      simp [mkBoundaries] at hb
      subst hb
      simp [boundaryOfMatch]
    | m2 :: rest2 =>
      rw [show mkBoundaries text (m :: m2 :: rest2) =
            boundaryOfMatch text m m2.start :: mkBoundaries text (m2 :: rest2) from rfl]
        at hb
      apply ih b
      match hsh : mkBoundaries text (m2 :: rest2) with
      | [] => cases rest2 <;> simp [mkBoundaries] at hsh
      | b2 :: bs2 =>
        rw [hsh] at hb
        rw [List.getLast?_cons_cons] at hb
        exact hb

/-- C5: the boundary records of one detection pass have strictly increasing
start offsets, each record ends exactly where the next starts, and the last
record ends at the document length: the records partition the suffix of the
document that begins at the first match, with no overlap and no gap. -/
theorem c5_boundary_invariants (text : Str) :
    List.Chain' (fun a b => a.start_pos < b.start_pos ∧ a.end_pos = b.start_pos)
      (identify_order_boundaries text) ∧
    ∀ b : Boundary, (identify_order_boundaries text).getLast? = some b →
      b.end_pos = text.length := by
  constructor
  · apply mkBoundaries_chain
    unfold effectiveOrderMatches
    simp only []
    split
    · exact finditerAux_chain p1Try text.length text 0
    · split
      · exact finditerAux_chain p2Try text.length text 0
      · exact finditerAux_chain p3Try text.length text 0
  · exact mkBoundaries_getLast text (effectiveOrderMatches text)

/-- Concrete document for the C5 witness. -/
def c5doc : Str := ("\n## ORDER I\nTitle A\nbody\n## ORDER II\nmore" : String).toList

/-- The last boundary record the detector returns on `c5doc`. -/
def c5lastB : Boundary :=
  { number := "II".toList, title := [], start_pos := 24, end_pos := 41,
    full_heading := "## ORDER II".toList }

/-- Witness for the hypothesis-bearing part of C5 on a concrete document. -/
theorem c5_boundary_invariants_witness :
    (identify_order_boundaries c5doc).getLast? = some c5lastB ∧
    c5lastB.end_pos = c5doc.length :=
  ⟨by decide, (c5_boundary_invariants c5doc).2 c5lastB (by decide)⟩

/-! ### Origin lemmas for the matcher combinators

A successful match always ends in the matcher's final continuation; the
quantifier combinators consume a (class-homogeneous) prefix first. -/

theorem pCh_some {p : Char → Bool} {s : Str} {k : Str → PRes} {res} :
    pCh p s k = some res → ∃ c r, s = c :: r ∧ p c ∧ k r = some res := by
  match s with
  | [] => intro h; simp [pCh] at h
  | c :: r =>
    intro h
    rw [pCh] at h
    by_cases hc : p c
    · exact ⟨c, r, rfl, hc, by rwa [if_pos hc] at h⟩
    · rw [if_neg hc] at h; exact absurd h (by simp)

theorem starGreedy_some {p : Char → Bool} {k : Str → PRes} {res} :
    ∀ {s : Str}, starGreedy p s k = some res →
      ∃ n, n ≤ s.length ∧ (s.take n).all p ∧ k (s.drop n) = some res := by
  intro s
  induction s with
  | nil => intro h; exact ⟨0, by simp, by simp, by simpa [starGreedy] using h⟩
  | cons c r ih =>
    intro h
    rw [starGreedy] at h
    by_cases hc : p c
    · rw [if_pos hc] at h
      cases hrec : starGreedy p r k with
      | some res2 =>
        rw [hrec] at h
        simp only [Option.some.injEq] at h
        subst h
        obtain ⟨n, hn, hall, hk⟩ := ih hrec
        exact ⟨n + 1, by simpa using hn, by simp [hc, hall], by simpa using hk⟩
      | none =>
        rw [hrec] at h
        exact ⟨0, by simp, by simp, h⟩
    · rw [if_neg hc] at h
      exact ⟨0, by simp, by simp, h⟩

theorem plusGreedy_some {p : Char → Bool} {s : Str} {k : Str → PRes} {res} :
    plusGreedy p s k = some res →
      ∃ n, 1 ≤ n ∧ n ≤ s.length ∧ (s.take n).all p ∧ k (s.drop n) = some res := by
  match s with
  | [] => intro h; simp [plusGreedy] at h
  | c :: r =>
    intro h
    rw [plusGreedy] at h
    by_cases hc : p c
    · rw [if_pos hc] at h
      obtain ⟨n, hn, hall, hk⟩ := starGreedy_some h
      exact ⟨n + 1, by omega, by simpa using hn, by simp [hc, hall], by simpa using hk⟩
    · rw [if_neg hc] at h; exact absurd h (by simp)

theorem plusLazy_some {p : Char → Bool} {k : Str → PRes} {res} :
    ∀ {s : Str}, plusLazy p s k = some res →
      ∃ n, 1 ≤ n ∧ n ≤ s.length ∧ (s.take n).all p ∧ k (s.drop n) = some res := by
  intro s
  induction s with
  | nil => intro h; simp [plusLazy] at h
  | cons c r ih =>
    intro h
    rw [plusLazy] at h
    by_cases hc : p c
    · rw [if_pos hc] at h
      cases hk : k r with
      | some res2 =>
        rw [hk] at h
        simp only [Option.some.injEq] at h
        subst h
        exact ⟨1, by omega, by simp, by simp [hc], by simpa using hk⟩
      | none =>
        rw [hk] at h
        obtain ⟨n, h1, hn, hall, hres⟩ := ih h
        exact ⟨n + 1, by omega, by simpa using hn, by simp [hc, hall], by simpa using hres⟩
    · rw [if_neg hc] at h; exact absurd h (by simp)

theorem optGreedy_some {sub : Str → (Str → PRes) → PRes} {s : Str} {k : Str → PRes}
    {res} : optGreedy sub s k = some res →
      sub s k = some res ∨ k s = some res := by
  intro h
  rw [optGreedy] at h
  by_cases hx : ∃ r2, sub s k = some r2
  · obtain ⟨r2, hr2⟩ := hx
    rw [hr2] at h
    exact Or.inl (hr2.trans h)
  · have hnone : sub s k = none := by
      cases hsk : sub s k
      · rfl
      · exact absurd ⟨_, hsk⟩ hx
    rw [hnone] at h
    exact Or.inr h

theorem pLitCI_some {k : Str → PRes} {res} :
    ∀ {lit s : Str}, pLitCI lit s k = some res → ∃ s', k s' = some res := by
  intro lit
  induction lit with
  | nil => intro s h; exact ⟨s, by simpa [pLitCI] using h⟩
  | cons c cs ih =>
    intro s h
    rw [pLitCI] at h
    obtain ⟨c', r, _, _, hk⟩ := pCh_some h
    exact ih hk

theorem pLitCS_some {k : Str → PRes} {res} :
    ∀ {lit s : Str}, pLitCS lit s k = some res → ∃ s', k s' = some res := by
  intro lit
  induction lit with
  | nil => intro s h; exact ⟨s, by simpa [pLitCS] using h⟩
  | cons c cs ih =>
    intro s h
    rw [pLitCS] at h
    obtain ⟨c', r, _, _, hk⟩ := pCh_some h
    exact ih hk

theorem capture_drop {s : Str} {n : Nat} (h : n ≤ s.length) :
    capture s (s.drop n) = s.take n := by
  unfold capture
  rw [List.length_drop]
  congr 1
  omega

/-- A pattern-1 match carries no second group, and its first group is a
non-empty run of roman-numeral characters. -/
theorem p1Try_groups {s rem : Str} {g1 g2 : Option Str}
    (h : p1Try s = some (rem, g1, g2)) :
    g2 = none ∧ ∃ r, g1 = some r ∧ r ≠ [] ∧ r.all isRomanCI := by
  unfold p1Try at h
  obtain ⟨c0, s1, hs0, hc0, h⟩ := pCh_some h
  obtain ⟨n1, hn11, hn12, hall1, h⟩ := plusGreedy_some h
  obtain ⟨n2, hn2, hall2, h⟩ := starGreedy_some h
  obtain ⟨s4, h⟩ := pLitCI_some h
  obtain ⟨n3, hn31, hn32, hall3, h⟩ := plusGreedy_some h
  obtain ⟨n4, hn41, hn42, hall4, h⟩ := plusGreedy_some h
  obtain ⟨n5, hn5, hall5, h⟩ := starGreedy_some h
  obtain ⟨c6, s7, hs6, hc6, h⟩ := pCh_some h
  simp only [Option.some.injEq, Prod.mk.injEq] at h
  obtain ⟨_, hg1, hg2⟩ := h
  refine ⟨hg2.symm, s4.drop n3 |>.take n4, ?_, ?_, ?_⟩
  · rw [← hg1, capture_drop hn42]
  · have : (List.take n4 (List.drop n3 s4)).length = n4 := by
      rw [List.length_take]
      omega
    intro hnil
    rw [hnil] at this
    simp at this
    omega
  · exact hall4

/-- Groups returned by every success of a continuation are these constants. -/
def KG (k : Str → PRes) (g1v g2v : Option Str) : Prop :=
  ∀ s' rem g1 g2, k s' = some (rem, g1, g2) → g1 = g1v ∧ g2 = g2v

theorem KG_base (g1v g2v : Option Str) :
    KG (fun s' => some (s', g1v, g2v)) g1v g2v := by
  intro s' rem g1 g2 h
  simp only [Option.some.injEq, Prod.mk.injEq] at h
  exact ⟨h.2.1.symm, h.2.2.symm⟩

theorem KG_pCh {k : Str → PRes} {g1v g2v : Option Str} (p : Char → Bool)
    (hk : KG k g1v g2v) : KG (fun s => pCh p s k) g1v g2v := by
  intro s' rem g1 g2 h
  obtain ⟨c, r, _, _, hk2⟩ := pCh_some h
  exact hk r rem g1 g2 hk2

theorem KG_star {k : Str → PRes} {g1v g2v : Option Str} (p : Char → Bool)
    (hk : KG k g1v g2v) : KG (fun s => starGreedy p s k) g1v g2v := by
  intro s' rem g1 g2 h
  obtain ⟨n, _, _, hk2⟩ := starGreedy_some h
  exact hk _ rem g1 g2 hk2

theorem KG_plus {k : Str → PRes} {g1v g2v : Option Str} (p : Char → Bool)
    (hk : KG k g1v g2v) : KG (fun s => plusGreedy p s k) g1v g2v := by
  intro s' rem g1 g2 h
  obtain ⟨n, _, _, _, hk2⟩ := plusGreedy_some h
  exact hk _ rem g1 g2 hk2

theorem KG_plusLazy {k : Str → PRes} {g1v g2v : Option Str} (p : Char → Bool)
    (hk : KG k g1v g2v) : KG (fun s => plusLazy p s k) g1v g2v := by
  intro s' rem g1 g2 h
  obtain ⟨n, _, _, _, hk2⟩ := plusLazy_some h
  exact hk _ rem g1 g2 hk2

theorem KG_optPCh {k : Str → PRes} {g1v g2v : Option Str} (p : Char → Bool)
    (hk : KG k g1v g2v) : KG (fun s => optGreedy (pCh p) s k) g1v g2v := by
  intro s' rem g1 g2 h
  rcases optGreedy_some h with h2 | h2
  · obtain ⟨c, r, _, _, hk2⟩ := pCh_some h2
    exact hk r rem g1 g2 hk2
  · exact hk s' rem g1 g2 h2

/-- A pattern-2 match carries no second group, and its first group is a
non-empty run of roman-numeral characters. -/
theorem p2Try_groups {s rem : Str} {g1 g2 : Option Str}
    (h : p2Try s = some (rem, g1, g2)) :
    g2 = none ∧ ∃ r, g1 = some r ∧ r ≠ [] ∧ r.all isRomanCI := by
  unfold p2Try at h
  obtain ⟨c0, s1, hs0, hc0, h⟩ := pCh_some h
  obtain ⟨n1, hn1, hall1, h⟩ := starGreedy_some h
  obtain ⟨s3, h⟩ := pLitCI_some h
  obtain ⟨n3, hn31, hn32, hall3, h⟩ := plusGreedy_some h
  obtain ⟨n4, hn41, hn42, hall4, h⟩ := plusGreedy_some h
  have hkg :
      KG (fun t => starGreedy isSpaceP t fun s6 =>
        optGreedy (pCh isDashC) s6 fun s7 =>
        starGreedy isSpaceP s7 fun s8 =>
        pCh (fun x => decide (x = '\n')) s8 fun s9 =>
          some (s9, some (capture (List.drop n3 s3) (List.drop n4 (List.drop n3 s3))),
            none))
        (some (capture (List.drop n3 s3) (List.drop n4 (List.drop n3 s3)))) none :=
    KG_star _ (KG_optPCh _ (KG_star _ (KG_pCh _ (KG_base _ _))))
  obtain ⟨hg1, hg2⟩ := hkg _ rem g1 g2 h
  subst hg1 hg2
  refine ⟨rfl, (List.drop n3 s3).take n4, by rw [capture_drop hn42], ?_, hall4⟩
  have hlen : (List.take n4 (List.drop n3 s3)).length = n4 := by
    rw [List.length_take]
    omega
  intro hnil
  rw [hnil] at hlen
  simp at hlen
  omega

/-- Every success of the continuation satisfies `P` on its groups. -/
def KGP (k : Str → PRes) (P : Option Str → Option Str → Prop) : Prop :=
  ∀ s' rem g1 g2, k s' = some (rem, g1, g2) → P g1 g2

theorem KGP_pCh {P} (p : Char → Bool) (k : Str → Str → PRes)
    (hk : ∀ s, KGP (k s) P) : KGP (fun s => pCh p s (k s)) P := by
  intro s' rem g1 g2 h
  obtain ⟨c, r, _, _, hk2⟩ := pCh_some h
  exact hk s' r rem g1 g2 hk2

theorem KGP_star {P} (p : Char → Bool) (k : Str → PRes)
    (hk : KGP k P) : KGP (fun s => starGreedy p s k) P := by
  intro s' rem g1 g2 h
  obtain ⟨n, _, _, hk2⟩ := starGreedy_some h
  exact hk _ rem g1 g2 hk2

theorem KGP_plusLazy {P} (p : Char → Bool) (k : Str → PRes)
    (hk : KGP k P) : KGP (fun s => plusLazy p s k) P := by
  intro s' rem g1 g2 h
  obtain ⟨n, _, _, _, hk2⟩ := plusLazy_some h
  exact hk _ rem g1 g2 hk2

theorem KGP_optPCh {P} (p : Char → Bool) (k : Str → PRes)
    (hk : KGP k P) : KGP (fun s => optGreedy (pCh p) s k) P := by
  intro s' rem g1 g2 h
  rcases optGreedy_some h with h2 | h2
  · obtain ⟨c, r, _, _, hk2⟩ := pCh_some h2
    exact hk r rem g1 g2 hk2
  · exact hk s' rem g1 g2 h2

/-- A pattern-3 match's first group is a non-empty run of roman-numeral
characters (its second group is the captured title). -/
theorem p3Try_groups {s rem : Str} {g1 g2 : Option Str}
    (h : p3Try s = some (rem, g1, g2)) :
    ∃ r, g1 = some r ∧ r ≠ [] ∧ r.all isRomanCI := by
  unfold p3Try at h
  obtain ⟨c0, s1, hs0, hc0, h⟩ := pCh_some h
  obtain ⟨n1, hn11, hn12, hall1, h⟩ := plusLazy_some h
  obtain ⟨n2, hn2, hall2, h⟩ := starGreedy_some h
  obtain ⟨s4, h⟩ := pLitCI_some h
  obtain ⟨n3, hn31, hn32, hall3, h⟩ := plusGreedy_some h
  obtain ⟨n4, hn41, hn42, hall4, h⟩ := plusGreedy_some h
  have hbase : ∀ s9v : Str,
      KGP (fun s11 =>
        match s11 with
        | '\n' :: _ =>
          some (s11, some (capture (List.drop n3 s4) (List.drop n4 (List.drop n3 s4))),
            some (capture s9v s11))
        | _ => none)
      (fun g1 _ =>
        g1 = some (capture (List.drop n3 s4) (List.drop n4 (List.drop n3 s4)))) := by
    intro s9v s' rem2 g1' g2' hh
    simp only at hh
    split at hh
    · simp only [Option.some.injEq, Prod.mk.injEq] at hh
      exact hh.2.1.symm
    · exact absurd hh (by simp)
  have hkgp :
      KGP (fun t => starGreedy isSpaceP t fun s7 =>
        optGreedy (pCh isDashC) s7 fun s8 =>
        starGreedy isSpaceP s8 fun s9 =>
        pCh isLetterAZCI s9 fun s10 =>
        plusLazy isTitleClsCI s10 fun s11 =>
          match s11 with
          | '\n' :: _ =>
            some (s11, some (capture (List.drop n3 s4) (List.drop n4 (List.drop n3 s4))),
              some (capture s9 s11))
          | _ => none)
      (fun g1 _ =>
        g1 = some (capture (List.drop n3 s4) (List.drop n4 (List.drop n3 s4)))) := by
    apply KGP_star
    apply KGP_optPCh
    apply KGP_star
    apply KGP_pCh
    intro s9v
    exact KGP_plusLazy _ _ (hbase s9v)
  have hg1 := hkgp _ rem g1 g2 h
  rw [capture_drop hn42] at hg1
  refine ⟨(List.drop n3 s4).take n4, hg1, ?_, hall4⟩
  have hlen : (List.take n4 (List.drop n3 s4)).length = n4 := by
    rw [List.length_take]
    omega
  intro hnil
  rw [hnil] at hlen
  simp at hlen
  omega

/-- Each match record's groups come from a successful attempt of the matcher. -/
theorem finditerAux_mem_groups (tryM : Str → PRes) :
    ∀ (fuel : Nat) (s : Str) (pos : Nat) (m : RMatch),
      m ∈ finditerAux tryM fuel s pos →
      ∃ s' rem, tryM s' = some (rem, m.g1, m.g2) := by
  intro fuel
  induction fuel with
  | zero => intro s pos m h; simp [finditerAux] at h
  | succ fuel ih =>
    intro s pos m h
    match s with
    | [] => simp [finditerAux] at h
    | c :: rest =>
      rw [finditerAux] at h
      cases htry : tryM (c :: rest) with
      | none =>
        rw [htry] at h
        exact ih rest (pos + 1) m h
      | some res =>
        obtain ⟨rem, g1, g2⟩ := res
        rw [htry] at h
        simp only at h
        by_cases hlen : (c :: rest).length - rem.length = 0
        · rw [if_pos hlen] at h
          rcases List.mem_cons.mp h with hm | hm
          · subst hm; exact ⟨c :: rest, rem, htry⟩
          · exact ih rest (pos + 1) m hm
        · rw [if_neg hlen] at h
          rcases List.mem_cons.mp h with hm | hm
          · subst hm; exact ⟨c :: rest, rem, htry⟩
          · exact ih rem (pos + ((c :: rest).length - rem.length)) m hm

/-- C6: the boundary detector tries its three patterns strictly in order,
keeps exactly the matches of the first tier that produced any, returns the
empty list when no tier matches (a normal branch, not an error), and for a
tier-1 or tier-2 match (which never carries a title group) the record title
comes from the line right after the match: a markdown sub-heading or an
uppercase-initial line, and is empty otherwise (`titleFromNextLine`). -/
theorem c6_cascade_and_titles (text : Str) :
    (finditer p1Try text ≠ [] →
      identify_order_boundaries text = mkBoundaries text (finditer p1Try text)) ∧
    (finditer p1Try text = [] → finditer p2Try text ≠ [] →
      identify_order_boundaries text = mkBoundaries text (finditer p2Try text)) ∧
    (finditer p1Try text = [] → finditer p2Try text = [] →
      identify_order_boundaries text = mkBoundaries text (finditer p3Try text)) ∧
    (finditer p1Try text = [] → finditer p2Try text = [] → finditer p3Try text = [] →
      identify_order_boundaries text = []) ∧
    (∀ m : RMatch, m ∈ finditer p1Try text ∨ m ∈ finditer p2Try text →
      ∀ endPos : Nat,
        (boundaryOfMatch text m endPos).title = titleFromNextLine text m.stop) := by
  refine ⟨?_, ?_, ?_, ?_, ?_⟩
  · intro h1
    unfold identify_order_boundaries effectiveOrderMatches
    simp [h1]
  · intro h1 h2
    unfold identify_order_boundaries effectiveOrderMatches
    simp [h1, h2]
  · intro h1 h2
    unfold identify_order_boundaries effectiveOrderMatches
    simp [h1, h2]
  · intro h1 h2 h3
    unfold identify_order_boundaries effectiveOrderMatches
    simp [h1, h2, h3, mkBoundaries]
  · intro m hm endPos
    have hg2 : m.g2 = none := by
      rcases hm with hm | hm
      · obtain ⟨s', rem, htry⟩ := finditerAux_mem_groups p1Try text.length text 0 m hm
        exact (p1Try_groups htry).1
      · obtain ⟨s', rem, htry⟩ := finditerAux_mem_groups p2Try text.length text 0 m hm
        exact (p2Try_groups htry).1
    unfold boundaryOfMatch
    rw [hg2]
    simp

/-- Concrete document for the C6 witness: pattern 1 matches it. -/
def c6doc : Str := ("x\n## ORDER IV\nCIVIL SUITS\nbody" : String).toList

/-- Witness for C6: on `c6doc` tier 1 is non-empty and the output is built
from exactly the tier-1 matches. -/
theorem c6_cascade_and_titles_witness :
    identify_order_boundaries c6doc = mkBoundaries c6doc (finditer p1Try c6doc) ∧
    finditer p1Try c6doc ≠ [] :=
  ⟨(c6_cascade_and_titles c6doc).1 (by decide), by decide⟩

/-! ### Substring and paragraph facts -/

/-- `t` occurs as a contiguous segment of `s`. -/
def SubSeg (t s : Str) : Prop := ∃ l r, s = l ++ t ++ r

theorem prefixCheck_append {pat t : Str} (r : Str) (h : prefixCheck pat t = true) :
    prefixCheck pat (t ++ r) = true := by
  induction pat generalizing t with
  | nil => simp [prefixCheck]
  | cons a as ih =>
    match t with
    | [] => simp [prefixCheck] at h
    | b :: bs =>
      rw [prefixCheck] at h
      simp only [Bool.and_eq_true] at h
      rw [List.cons_append, prefixCheck]
      simp only [Bool.and_eq_true]
      exact ⟨h.1, ih h.2⟩

theorem subCheck_append_right {pat t : Str} (r : Str) (h : subCheck pat t = true) :
    subCheck pat (t ++ r) = true := by
  induction t with
  | nil =>
    rw [subCheck] at h
    match r with
    | [] => simpa [subCheck] using h
    | c :: rs =>
      rw [List.nil_append]
      rw [subCheck]
      rw [Bool.or_eq_true]
      exact Or.inl (prefixCheck_append _ h)
  | cons c cs ih =>
    rw [subCheck, Bool.or_eq_true] at h
    rw [List.cons_append, subCheck, Bool.or_eq_true]
    rcases h with h | h
    · exact Or.inl (by rw [← List.cons_append]; exact prefixCheck_append _ h)
    · exact Or.inr (ih h)

theorem subCheck_append_left {pat t : Str} (l : Str) (h : subCheck pat t = true) :
    subCheck pat (l ++ t) = true := by
  induction l with
  | nil => simpa
  | cons c cs ih =>
    rw [List.cons_append, subCheck, Bool.or_eq_true]
    exact Or.inr ih

theorem subCheck_false_of_seg {pat t s : Str} (hseg : SubSeg t s)
    (hs : subCheck pat s = false) : subCheck pat t = false := by
  obtain ⟨l, r, rfl⟩ := hseg
  by_contra hne
  have ht : subCheck pat t = true := by
    cases hc : subCheck pat t
    · exact absurd hc hne
    · rfl
  have := subCheck_append_left l (subCheck_append_right r ht)
  rw [← List.append_assoc] at this
  rw [this] at hs
  cases hs

theorem strip_seg (s : Str) : SubSeg (strip s) s := by
  refine ⟨s.takeWhile isSpaceP,
    ((s.dropWhile isSpaceP).reverse.takeWhile isSpaceP).reverse, ?_⟩
  have h1 : s.takeWhile isSpaceP ++ s.dropWhile isSpaceP = s :=
    List.takeWhile_append_dropWhile isSpaceP s
  have h2 : (s.dropWhile isSpaceP).reverse.takeWhile isSpaceP ++
      (s.dropWhile isSpaceP).reverse.dropWhile isSpaceP =
      (s.dropWhile isSpaceP).reverse :=
    List.takeWhile_append_dropWhile isSpaceP (s.dropWhile isSpaceP).reverse
  have h3 := congrArg List.reverse h2
  rw [List.reverse_append, List.reverse_reverse] at h3
  unfold strip
  conv_lhs => rw [← h1, ← h3]
  rw [List.append_assoc]

theorem subCheck_sep2_snoc : ∀ (x : Str) (c : Char),
    subCheck sep2 (x ++ [c]) = true →
    subCheck sep2 x = true ∨ (x.getLast? = some '\n' ∧ c = '\n') := by
  intro x
  induction x with
  | nil => intro c h; simp [subCheck, prefixCheck, sep2] at h
  | cons a x' ih =>
    intro c h
    match x' with
    | [] =>
      simp [subCheck, prefixCheck, sep2] at h
      obtain ⟨ha, hc⟩ := h
      refine Or.inr ⟨?_, hc.symm⟩
      rw [show ([a] : Str).getLast? = some a from rfl, ← ha]
    | b :: x2 =>
      rw [List.cons_append, subCheck, Bool.or_eq_true] at h
      rcases h with h | h
      · left
        rw [subCheck, Bool.or_eq_true]
        left
        rw [List.cons_append] at h
        simp only [sep2, prefixCheck, Bool.and_eq_true] at h ⊢
        exact h
      · rcases ih c h with h2 | h2
        · left
          rw [subCheck, Bool.or_eq_true]
          exact Or.inr h2
        · right
          refine ⟨?_, h2.2⟩
          rw [List.getLast?_cons_cons]
          exact h2.1

theorem splitSepAux_step (acc : Str) (c : Char) (rest : List Char)
    (hne : ∀ rest1 : List Char, c = '\n' → rest = '\n' :: rest1 → False) :
    splitSepAux acc (c :: rest) = splitSepAux (c :: acc) rest := by
  rw [splitSepAux.eq_def]
  split
  · rename_i rest1 heq2
    injection heq2 with hc hrest
    exact ((hne rest1 hc hrest)).elim
  · rename_i c2 rest2 heq2
    injection heq2 with hc hrest
    subst hc
    subst hrest
    rfl
  · rename_i heq2
    exact absurd heq2 (by simp)

/-- No piece produced by the paragraph split contains the separator: the
pieces are single blank-line-delimited paragraphs. -/
theorem splitSepAux_no_sep :
    ∀ (acc s : Str),
      subCheck sep2 acc.reverse = false →
      (acc.head? = some '\n' → s.head? ≠ some '\n') →
      ∀ piece ∈ splitSepAux acc s, subCheck sep2 piece = false := by
  intro acc s
  induction acc, s using splitSepAux.induct with
  | case1 acc rest ih =>
    intro h1 h2 piece hp
    rw [show splitSepAux acc ('\n' :: '\n' :: rest) =
      acc.reverse :: splitSepAux [] rest from rfl] at hp
    rcases List.mem_cons.mp hp with hp | hp
    · subst hp; exact h1
    · exact ih (by simp [subCheck, prefixCheck, sep2]) (by simp) piece hp
  | case2 acc c rest hne ih =>
    intro h1 h2 piece hp
    rw [splitSepAux_step acc c rest hne] at hp
    have h1' : subCheck sep2 (c :: acc).reverse = false := by
      rw [List.reverse_cons]
      cases hx : subCheck sep2 (acc.reverse ++ [c])
      · rfl
      · rcases subCheck_sep2_snoc acc.reverse c hx with hy | hy
        · rw [hy] at h1; cases h1
        · rw [List.getLast?_reverse] at hy
          have hcnl : c = '\n' := hy.2
          have := h2 (by rw [hy.1])
          simp [hcnl] at this
    have h2' : (c :: acc).head? = some '\n' → rest.head? ≠ some '\n' := by
      intro hc hr
      simp only [List.head?_cons, Option.some.injEq] at hc
      cases rest with
      | nil => simp at hr
      | cons d r2 =>
        simp only [List.head?_cons, Option.some.injEq] at hr
        exact hne r2 hc (by rw [hr])
    exact ih h1' h2' piece hp
  | case3 acc =>
    intro h1 h2 piece hp
    rw [show splitSepAux acc [] = [acc.reverse] from rfl] at hp
    simp at hp
    subst hp
    exact h1

theorem splitSep_no_sep (s : Str) :
    ∀ piece ∈ splitSep s, subCheck sep2 piece = false := by
  intro piece hp
  exact splitSepAux_no_sep [] s (by simp [subCheck, prefixCheck, sep2]) (by simp)
    piece hp

theorem psGo_ne_nil (max_size : Nat) :
    ∀ (ps : List Str) (cur : Str), ∀ c ∈ psGo max_size cur ps, c ≠ [] := by
  intro ps
  induction ps with
  | nil =>
    intro cur c hc
    rw [psGo] at hc
    by_cases hcur : cur = []
    · simp [hcur] at hc
    · simp [hcur] at hc
      subst hc
      exact hcur
  | cons p0 ps ih =>
    intro cur c hc
    rw [psGo] at hc
    by_cases h0 : strip p0 = []
    · rw [if_pos h0] at hc
      exact ih cur c hc
    · rw [if_neg h0] at hc
      by_cases hfit : cur.length + (strip p0).length + 2 ≤ max_size
      · rw [if_pos hfit] at hc
        exact ih _ c hc
      · rw [if_neg hfit] at hc
        rcases List.mem_append.mp hc with hc | hc
        · by_cases hcur : cur = []
          · simp [hcur] at hc
          · simp [hcur] at hc
            subst hc
            exact hcur
        · exact ih _ c hc

theorem psGo_mem (max_size : Nat) :
    ∀ (ps : List Str) (cur : Str), ∀ c ∈ psGo max_size cur ps,
      c.length ≤ max_size ∨ c = cur ∨ c ∈ ps.map strip := by
  intro ps
  induction ps with
  | nil =>
    intro cur c hc
    rw [psGo] at hc
    by_cases hcur : cur = []
    · simp [hcur] at hc
    · simp [hcur] at hc
      exact Or.inr (Or.inl hc)
  | cons p0 ps ih =>
    intro cur c hc
    rw [psGo] at hc
    by_cases h0 : strip p0 = []
    · rw [if_pos h0] at hc
      rcases ih cur c hc with h | h | h
      · exact Or.inl h
      · exact Or.inr (Or.inl h)
      · exact Or.inr (Or.inr (by simp [List.mem_cons]; right; simpa using h))
    · rw [if_neg h0] at hc
      by_cases hfit : cur.length + (strip p0).length + 2 ≤ max_size
      · rw [if_pos hfit] at hc
        rcases ih _ c hc with h | h | h
        · exact Or.inl h
        · left
          subst h
          by_cases hcur : cur = []
          · rw [if_pos hcur]
            rw [hcur] at hfit
            simp only [List.length_nil] at hfit
            omega
          · rw [if_neg hcur]
            simp only [List.length_append, sep2, List.length_cons, List.length_nil]
            omega
        · exact Or.inr (Or.inr (by simp [List.mem_cons]; right; simpa using h))
      · rw [if_neg hfit] at hc
        rcases List.mem_append.mp hc with hc2 | hc2
        · by_cases hcur : cur = []
          · simp [hcur] at hc2
          · simp [hcur] at hc2
            exact Or.inr (Or.inl hc2)
        · rcases ih _ c hc2 with h | h | h
          · exact Or.inl h
          · exact Or.inr (Or.inr (by simp [List.mem_cons]; left; exact h))
          · exact Or.inr (Or.inr (by simp [List.mem_cons]; right; simpa using h))

theorem split_by_paragraphs_size (text : Str) (max_size : Nat) :
    ∀ c ∈ split_by_paragraphs text max_size,
      c.length ≤ max_size ∨
      (max_size < c.length ∧ c ∈ (splitSep text).map strip ∧
        subCheck sep2 c = false) := by
  intro c hc
  unfold split_by_paragraphs at hc
  by_cases hle : c.length ≤ max_size
  · exact Or.inl hle
  · right
    refine ⟨by omega, ?_, ?_⟩
    · rcases psGo_mem max_size (splitSep text) [] c hc with h | h | h
      · omega
      · exact absurd h (psGo_ne_nil max_size (splitSep text) [] c hc)
      · exact h
    · rcases psGo_mem max_size (splitSep text) [] c hc with h | h | h
      · omega
      · exact absurd h (psGo_ne_nil max_size (splitSep text) [] c hc)
      · obtain ⟨piece, hpiece, hcs⟩ := List.mem_map.mp h
        subst hcs
        exact subCheck_false_of_seg (strip_seg piece) (splitSep_no_sep text piece hpiece)

/-- C7: the paragraph splitter packs blank-line-delimited paragraphs greedily
(the embedded loop `psGo`), and any output chunk over the bound is exactly one
stripped paragraph of the input, emitted whole — it spans no paragraph break. -/
theorem c7_paragraph_splitter (text : Str) (max_size : Nat) :
    ∀ c ∈ split_by_paragraphs text max_size,
      c.length ≤ max_size ∨
      (max_size < c.length ∧ c ∈ (splitSep text).map strip ∧
        subCheck sep2 c = false) :=
  split_by_paragraphs_size text max_size

/-- Witness for C7 on a concrete oversized single paragraph. -/
theorem c7_paragraph_splitter_witness :
    ("aaaaaa" : String).toList ∈
      split_by_paragraphs ("aaaaaa\n\nbb" : String).toList 3 ∧
    (3 < ("aaaaaa" : String).toList.length ∧
      ("aaaaaa" : String).toList ∈
        (splitSep ("aaaaaa\n\nbb" : String).toList).map strip ∧
      subCheck sep2 ("aaaaaa" : String).toList = false) ∨
    ("aaaaaa" : String).toList.length ≤ 3 :=
  Or.symm (c7_paragraph_splitter ("aaaaaa\n\nbb" : String).toList 3
    ("aaaaaa" : String).toList (by decide)) |>.imp (fun h => ⟨by decide, h⟩) id

/-! ### Validator/merger facts (C10, C1) -/

theorem strip_eq_nil_iff (s : Str) : strip s = [] ↔ ∀ c ∈ s, isSpaceP c := by
  unfold strip
  rw [List.reverse_eq_nil_iff, List.dropWhile_eq_nil_iff]
  constructor
  · intro h c hc
    have hsplit : s.takeWhile isSpaceP ++ s.dropWhile isSpaceP = s :=
      List.takeWhile_append_dropWhile isSpaceP s
    rw [← hsplit] at hc
    rcases List.mem_append.mp hc with hc | hc
    · exact List.mem_takeWhile_imp hc
    · exact h c (by simpa using hc)
  · intro h c hc
    rw [List.mem_reverse] at hc
    exact h c ((List.dropWhile_sublist isSpaceP).mem hc)

theorem strip_ne_nil_append_right {b : Str} (a : Str) (h : strip b ≠ []) :
    strip (a ++ b) ≠ [] := by
  intro hcon
  apply h
  rw [strip_eq_nil_iff] at hcon ⊢
  intro c hc
  exact hcon c (List.mem_append.mpr (Or.inr hc))

theorem strip_ne_nil_append_left {a : Str} (b : Str) (h : strip a ≠ []) :
    strip (a ++ b) ≠ [] := by
  intro hcon
  apply h
  rw [strip_eq_nil_iff] at hcon ⊢
  intro c hc
  exact hcon c (List.mem_append.mpr (Or.inl hc))

/-- Skipping whitespace-only chunks inside the loop equals filtering first. -/
theorem vmGo_filter (th : Thresholds) :
    ∀ (cs : List Str) (validated : List Str) (merge : Str),
      vmGo th validated merge cs =
        vmGo th validated merge (cs.filter (fun c => decide (strip c ≠ []))) := by
  intro cs
  induction cs with
  | nil => intro validated merge; rfl
  | cons c cs ih =>
    intro validated merge
    rw [vmGo]
    by_cases h0 : strip c = []
    · rw [if_pos h0]
      rw [List.filter_cons_of_neg (by simp [h0])]
      exact ih validated merge
    · rw [if_neg h0]
      rw [List.filter_cons_of_pos (by simp [h0])]
      rw [vmGo]
      rw [if_neg h0]
      by_cases hsmall : c.length < th.minChunkSize
      · rw [if_pos hsmall, if_pos hsmall]
        exact ih _ _
      · rw [if_neg hsmall, if_neg hsmall]
        exact ih _ _

theorem appendToLast_strip_ne {merge : Str} (hm2 : strip merge ≠ []) :
    ∀ (vs : List Str), (∀ v ∈ vs, strip v ≠ []) →
      ∀ c ∈ appendToLast vs merge, strip c ≠ [] := by
  intro vs
  induction vs with
  | nil =>
    intro hv c hc
    simp [appendToLast] at hc
    subst hc
    exact hm2
  | cons x xs ih =>
    intro hv c hc
    cases xs with
    | nil =>
      simp [appendToLast] at hc
      subst hc
      exact strip_ne_nil_append_right _ hm2
    | cons y ys =>
      rw [show appendToLast (x :: y :: ys) merge =
        x :: appendToLast (y :: ys) merge from rfl] at hc
      rcases List.mem_cons.mp hc with hc | hc
      · rw [hc]
        exact hv x (by simp)
      · exact ih (fun v hv2 => hv v (List.mem_cons_of_mem x hv2)) c hc

theorem flushMerge_strip_ne (th : Thresholds) {validated : List Str} {merge : Str}
    (hv : ∀ v ∈ validated, strip v ≠ []) (hm : strip merge ≠ []) :
    ∀ c ∈ flushMerge th validated merge, strip c ≠ [] := by
  intro c hc
  unfold flushMerge at hc
  split at hc
  · exact appendToLast_strip_ne hm validated hv c hc
  · rcases List.mem_append.mp hc with hc | hc
    · exact hv c hc
    · simp at hc
      subst hc
      exact hm

theorem vmGo_no_ws (th : Thresholds) :
    ∀ (cs : List Str) (validated : List Str) (merge : Str),
      (∀ v ∈ validated, strip v ≠ []) →
      (merge ≠ [] → strip merge ≠ []) →
      ∀ c ∈ vmGo th validated merge cs, strip c ≠ [] := by
  intro cs
  induction cs with
  | nil =>
    intro validated merge hv hm c hc
    rw [vmGo] at hc
    by_cases h0 : merge = []
    · rw [if_neg (by simp [h0])] at hc
      exact hv c hc
    · rw [if_pos h0] at hc
      exact flushMerge_strip_ne th hv (hm h0) c hc
  | cons c0 cs ih =>
    intro validated merge hv hm c hc
    rw [vmGo] at hc
    by_cases h0 : strip c0 = []
    · rw [if_pos h0] at hc
      exact ih validated merge hv hm c hc
    · rw [if_neg h0] at hc
      by_cases hsmall : c0.length < th.minChunkSize
      · rw [if_pos hsmall] at hc
        refine ih validated _ hv ?_ c hc
        intro _
        by_cases hm0 : merge = []
        · rw [if_pos hm0]
          exact h0
        · rw [if_neg hm0]
          exact strip_ne_nil_append_right _ h0
      · rw [if_neg hsmall] at hc
        refine ih _ [] ?_ (by simp) c hc
        intro v hv2
        rcases List.mem_append.mp hv2 with hv2 | hv2
        · by_cases hm0 : merge = []
          · rw [if_neg (by simp [hm0])] at hv2
            exact hv v hv2
          · rw [if_pos hm0] at hv2
            exact flushMerge_strip_ne th hv (hm hm0) v hv2
        · simp at hv2
          subst hv2
          exact h0

/-- C10: the validator/merger drops empty and whitespace-only chunks before
any merging (it equals itself run on the pre-filtered sequence), and its
output never contains a whitespace-only chunk. -/
theorem c10_validator_discards_whitespace (th : Thresholds) (chunks : List Str) :
    validate_and_merge_chunks th chunks =
      validate_and_merge_chunks th (chunks.filter (fun c => decide (strip c ≠ []))) ∧
    ∀ c ∈ validate_and_merge_chunks th chunks, strip c ≠ [] := by
  constructor
  · exact vmGo_filter th chunks [] []
  · exact vmGo_no_ws th chunks [] [] (by simp) (by simp)

/-- Witness for C10 on a concrete input containing a whitespace-only chunk. -/
theorem c10_validator_discards_whitespace_witness :
    strip (("ok" : String).toList) ≠ [] ∧
    (("ok" : String).toList ∈
      validate_and_merge_chunks default_thresholds
        [(" \n " : String).toList, ("ok" : String).toList]) :=
  ⟨(c10_validator_discards_whitespace default_thresholds
      [(" \n " : String).toList, ("ok" : String).toList]).2
    (("ok" : String).toList) (by decide), by decide⟩

theorem appendToLast_all_ge (min : Nat) {merge : Str} :
    ∀ vs : List Str, (∀ v ∈ vs, min ≤ v.length) →
      ∀ c ∈ appendToLast vs merge, vs ≠ [] → min ≤ c.length := by
  intro vs
  induction vs with
  | nil => intro _ c _ h; exact absurd rfl h
  | cons x xs ih =>
    intro hv c hc _
    cases xs with
    | nil =>
      simp [appendToLast] at hc
      rw [hc]
      have := hv x (by simp)
      rw [List.length_append, List.length_append]
      omega
    | cons y ys =>
      rw [show appendToLast (x :: y :: ys) merge =
        x :: appendToLast (y :: ys) merge from rfl] at hc
      rcases List.mem_cons.mp hc with hc | hc
      · rw [hc]
        exact hv x (by simp)
      · exact ih (fun v hv2 => hv v (List.mem_cons_of_mem x hv2)) c hc (by simp)

theorem flushMerge_tail_ge (th : Thresholds) {validated : List Str} {merge : Str}
    (hv : ∀ v ∈ validated.drop 1, th.minChunkSize ≤ v.length) :
    ∀ c ∈ (flushMerge th validated merge).drop 1, th.minChunkSize ≤ c.length := by
  intro c hc
  unfold flushMerge at hc
  split at hc
  · rename_i hcond
    cases validated with
    | nil => exact absurd rfl hcond.2
    | cons x xs =>
      cases xs with
      | nil => simp [appendToLast] at hc
      | cons y ys =>
        rw [show appendToLast (x :: y :: ys) merge =
          x :: appendToLast (y :: ys) merge from rfl] at hc
        rw [List.drop_one, List.tail_cons] at hc
        exact appendToLast_all_ge th.minChunkSize (y :: ys)
          (fun v hv2 => hv v (by simpa using hv2)) c hc (by simp)
  · rename_i hcond
    cases validated with
    | nil =>
      simp at hc
    | cons x xs =>
      rw [List.cons_append, List.drop_one, List.tail_cons] at hc
      rcases List.mem_append.mp hc with hc | hc
      · exact hv c (by simpa using hc)
      · simp at hc
        rw [hc]
        have : ¬(merge.length < th.minChunkSize ∧ x :: xs ≠ []) := hcond
        simp at this
        omega

theorem vmGo_tail_ge (th : Thresholds) :
    ∀ (cs : List Str) (validated : List Str) (merge : Str),
      (∀ v ∈ validated.drop 1, th.minChunkSize ≤ v.length) →
      ∀ c ∈ (vmGo th validated merge cs).drop 1, th.minChunkSize ≤ c.length := by
  intro cs
  induction cs with
  | nil =>
    intro validated merge hv c hc
    rw [vmGo] at hc
    by_cases h0 : merge = []
    · rw [if_neg (by simp [h0])] at hc
      exact hv c hc
    · rw [if_pos h0] at hc
      exact flushMerge_tail_ge th hv c hc
  | cons c0 cs ih =>
    intro validated merge hv c hc
    rw [vmGo] at hc
    by_cases h0 : strip c0 = []
    · rw [if_pos h0] at hc
      exact ih validated merge hv c hc
    · rw [if_neg h0] at hc
      by_cases hsmall : c0.length < th.minChunkSize
      · rw [if_pos hsmall] at hc
        exact ih validated _ hv c hc
      · rw [if_neg hsmall] at hc
        refine ih _ [] ?_ c hc
        intro v hv2
        have hv' : ∀ w ∈ (if merge ≠ [] then flushMerge th validated merge
            else validated).drop 1, th.minChunkSize ≤ w.length := by
          by_cases hm0 : merge = []
          · rw [if_neg (by simp [hm0])]
            exact hv
          · rw [if_pos hm0]
            exact flushMerge_tail_ge th hv
        revert hv2
        generalize hgen : (if merge ≠ [] then flushMerge th validated merge
          else validated) = validated'
        rw [hgen] at hv'
        intro hv2
        cases validated' with
        | nil =>
          simp at hv2
        | cons x xs =>
          rw [List.cons_append, List.drop_one, List.tail_cons] at hv2
          rcases List.mem_append.mp hv2 with hv2 | hv2
          · exact hv' v (by simpa using hv2)
          · simp at hv2
            rw [hv2]
            omega

set_option maxRecDepth 10000 in
/-- C1 is refuted: on the input of 400 a-chars then 600 b-chars the merger
returns two chunks and the first one is under the minimum size. -/
theorem c1_counterexample :
    (validate_and_merge_chunks default_thresholds
        [List.replicate 400 'a', List.replicate 600 'b']).length = 2 ∧
    ((validate_and_merge_chunks default_thresholds
        [List.replicate 400 'a', List.replicate 600 'b']).headD []).length = 400 ∧
    400 < MIN_CHUNK_SIZE := by
  refine ⟨?_, ?_, by decide⟩ <;> decide

/-- C1 as amended: every chunk the validator/merger returns, except possibly
the first, has length at least `MIN_CHUNK_SIZE`; a leading run of under-sized
chunks that never reaches the minimum survives as an under-sized first chunk. -/
theorem c1_amended_size_floor (th : Thresholds) (chunks : List Str) :
    ∀ c ∈ (validate_and_merge_chunks th chunks).drop 1,
      th.minChunkSize ≤ c.length := by
  exact vmGo_tail_ge th chunks [] [] (by simp)

set_option maxRecDepth 10000 in
/-- Witness for the amended C1 on the counterexample input itself. -/
theorem c1_amended_size_floor_witness :
    MIN_CHUNK_SIZE ≤ (List.replicate 600 'b').length :=
  c1_amended_size_floor default_thresholds
    [List.replicate 400 'a', List.replicate 600 'b']
    (List.replicate 600 'b') (by decide)

/-! ### Whitespace-normalized content preservation -/

theorem nw_append (a b : Str) : nw (a ++ b) = nw a ++ nw b := by
  unfold nw
  exact List.filter_append _ _

theorem nw_eq_nil_of_all_space {x : Str} (h : ∀ c ∈ x, isSpaceP c) : nw x = [] := by
  unfold nw
  rw [List.filter_eq_nil_iff]
  intro a ha
  simp [h a ha]

theorem nw_dropWhile (s : Str) : nw (s.dropWhile isSpaceP) = nw s := by
  conv_rhs => rw [← List.takeWhile_append_dropWhile isSpaceP s]
  rw [nw_append]
  rw [nw_eq_nil_of_all_space (fun c hc => List.mem_takeWhile_imp hc)]
  simp

theorem nw_reverse (s : Str) : nw s.reverse = (nw s).reverse := by
  unfold nw
  exact List.filter_reverse _ _


theorem nw_strip (s : Str) : nw (strip s) = nw s := by
  unfold strip
  rw [nw_reverse, nw_dropWhile, nw_reverse, List.reverse_reverse, nw_dropWhile]

theorem splitSepAux_ne_nil : ∀ (acc s : Str), splitSepAux acc s ≠ [] := by
  intro acc s
  induction acc, s using splitSepAux.induct with
  | case1 acc rest ih => simp [splitSepAux]
  | case2 acc c rest hne ih =>
    rw [splitSepAux_step acc c rest hne]
    exact ih
  | case3 acc => simp [splitSepAux]

theorem joinSep_cons {ps : List Str} (p : Str) (h : ps ≠ []) :
    joinSep (p :: ps) = p ++ sep2 ++ joinSep ps := by
  match ps with
  | [] => exact absurd rfl h
  | q :: qs => rfl

/-- Rejoining the paragraph split with the separator restores the input. -/
theorem splitSepAux_join : ∀ (acc s : Str),
    joinSep (splitSepAux acc s) = acc.reverse ++ s := by
  intro acc s
  induction acc, s using splitSepAux.induct with
  | case1 acc rest ih =>
    rw [show splitSepAux acc ('\n' :: '\n' :: rest) =
      acc.reverse :: splitSepAux [] rest from rfl]
    rw [joinSep_cons _ (splitSepAux_ne_nil [] rest)]
    rw [ih]
    simp [sep2]
  | case2 acc c rest hne ih =>
    rw [splitSepAux_step acc c rest hne, ih]
    simp
  | case3 acc =>
    rw [show splitSepAux acc [] = [acc.reverse] from rfl]
    simp [joinSep]

theorem splitSep_join (s : Str) : joinSep (splitSep s) = s := by
  unfold splitSep
  rw [splitSepAux_join]
  rfl

theorem nw_joinSep : ∀ ps : List Str, nw (joinSep ps) = nwConcat ps := by
  intro ps
  induction ps with
  | nil => rfl
  | cons p ps ih =>
    match ps, ih with
    | [], _ => simp [joinSep, nwConcat]
    | q :: qs, ih =>
      rw [joinSep_cons _ (by simp)]
      rw [nw_append, nw_append, ih]
      rw [show nw sep2 = [] from rfl]
      simp [nwConcat]

theorem nwConcat_splitSep (s : Str) : nwConcat (splitSep s) = nw s := by
  rw [← nw_joinSep, splitSep_join]

theorem psGo_nw (max_size : Nat) :
    ∀ (ps : List Str) (cur : Str),
      nwConcat (psGo max_size cur ps) = nw cur ++ nwConcat (ps.map strip) := by
  intro ps
  induction ps with
  | nil =>
    intro cur
    by_cases hcur : cur = []
    · simp [psGo, hcur, nwConcat, nw]
    · simp [psGo, hcur, nwConcat]
  | cons p0 ps ih =>
    intro cur
    rw [psGo]
    by_cases h0 : strip p0 = []
    · rw [if_pos h0]
      rw [ih]
      simp only [List.map_cons, nwConcat, List.map, List.flatten]
      rw [show nw (strip p0) = [] from by rw [h0]; rfl]
      simp [nwConcat]
    · rw [if_neg h0]
      by_cases hfit : cur.length + (strip p0).length + 2 ≤ max_size
      · rw [if_pos hfit, ih]
        by_cases hcur : cur = []
        · rw [if_pos hcur, hcur]
          simp [nwConcat, nw]
        · rw [if_neg hcur]
          rw [nw_append, nw_append]
          rw [show nw sep2 = [] from rfl]
          simp [nwConcat]
      · rw [if_neg hfit]
        unfold nwConcat
        rw [List.map_append, List.flatten_append]
        have hrec := ih (strip p0)
        unfold nwConcat at hrec
        rw [hrec]
        by_cases hcur : cur = []
        · rw [if_neg (by simp [hcur]), hcur]
          simp [nw]
        · rw [if_pos hcur]
          simp

/-- The paragraph splitter preserves all non-whitespace content in order. -/
theorem split_by_paragraphs_nw (text : Str) (max_size : Nat) :
    nwConcat (split_by_paragraphs text max_size) = nw text := by
  unfold split_by_paragraphs
  rw [psGo_nw]
  rw [show nw [] = [] from rfl, List.nil_append]
  rw [← nwConcat_splitSep text]
  unfold nwConcat
  rw [List.map_map]
  congr 1
  apply List.map_congr_left
  intro p _
  exact nw_strip p

/-! ### Fallback path (C8) -/

/-- C8 as amended: when the boundary detector finds nothing, `chunk_document`
is exactly the paragraph splitter on the whole document with the reduced
bound 1000, and the result is non-empty whenever the document contains at
least one non-whitespace character.  (A total function of the input: the
embedding has no failure path.) -/
theorem c8_fallback_amended (th : Thresholds) (text : Str)
    (hb : identify_order_boundaries text = []) :
    chunk_document th text = split_by_paragraphs text 1000 ∧
    ((∃ c ∈ text, ¬ isSpaceP c) → chunk_document th text ≠ []) := by
  have hcd : chunk_document th text = split_by_paragraphs text 1000 := by
    unfold chunk_document
    rw [if_pos hb]
    rfl
  refine ⟨hcd, ?_⟩
  intro hex hnil
  rw [hcd] at hnil
  have hnw := split_by_paragraphs_nw text 1000
  rw [hnil] at hnw
  obtain ⟨c, hc, hcs⟩ := hex
  have : c ∈ nw text := by
    unfold nw
    rw [List.mem_filter]
    exact ⟨hc, by simp [hcs]⟩
  rw [← hnw] at this
  simp [nwConcat] at this

/-- C8 is refuted as stated: the whitespace-only document `" "` is non-empty,
the detector finds no boundaries, yet `chunk_document` returns the empty list. -/
theorem c8_counterexample :
    (" " : String).toList ≠ [] ∧
    identify_order_boundaries ((" " : String).toList) = [] ∧
    chunk_document default_thresholds ((" " : String).toList) = [] := by
  refine ⟨by decide, by decide, by decide⟩

/-- Witness for the amended C8 on a concrete heading-free document. -/
theorem c8_fallback_amended_witness :
    chunk_document default_thresholds (("plain prose text" : String).toList) =
      split_by_paragraphs (("plain prose text" : String).toList) 1000 ∧
    chunk_document default_thresholds (("plain prose text" : String).toList) ≠ [] :=
  ⟨(c8_fallback_amended default_thresholds (("plain prose text" : String).toList)
      (by decide)).1,
   (c8_fallback_amended default_thresholds (("plain prose text" : String).toList)
      (by decide)).2 ⟨'p', by decide, by decide⟩⟩

/-! ### Statefulness model (C9)

The only side effect on the chunking path of the source is logging (and the
read-only `llm_model`/HTTP-client fields of `self`, which the path never
touches).  Log messages are modelled as events; `chunk_document_logged`
threads the object state explicitly the way a call on a `SemanticChunker`
instance does. -/

inductive LogEvent where
  | startedChunking
  | foundOrder (number : Str)
  | noOrdersWarning
  | fallbackWarning
  | detectedOrders (n : Nat)
  | createdChunks (n : Nat)
  | chunkStats (sizes : List Nat)
  deriving DecidableEq, Repr

structure ChunkerState where
  llm_model : Str
  log : List LogEvent

/-- The log events one `chunk_document` call emits (message text abstracted;
each event is a pure function of values the source interpolates into it). -/
def chunkEvents (th : Thresholds) (text : Str) : List LogEvent :=
  let bs := identify_order_boundaries text
  LogEvent.startedChunking ::
    (bs.map (fun b => LogEvent.foundOrder b.number)) ++
    (if bs = [] then [LogEvent.noOrdersWarning, LogEvent.fallbackWarning]
     else
       [LogEvent.detectedOrders bs.length,
        LogEvent.createdChunks (chunk_document th text).length,
        LogEvent.chunkStats ((chunk_document th text).map List.length)])

def chunk_document_logged (th : Thresholds) (st : ChunkerState) (text : Str) :
    List Str × ChunkerState :=
  (chunk_document th text, { st with log := st.log ++ chunkEvents th text })

/-- C9: `chunk_document` is a pure, deterministic function of the document
text and the size thresholds.  The chunk sequence returned by the stateful
call equals the pure function, is independent of the incoming state, is
unchanged when another document was processed first (no state is shared
between documents), and the call only appends to the log, leaving the
configuration field untouched. -/
theorem c9_purity_determinism (th : Thresholds) (s1 s2 : ChunkerState)
    (text text2 : Str) :
    (chunk_document_logged th s1 text).1 = chunk_document th text ∧
    (chunk_document_logged th s1 text).1 = (chunk_document_logged th s2 text).1 ∧
    ((chunk_document_logged th ((chunk_document_logged th s1 text2).2) text).1 =
      chunk_document th text) ∧
    (chunk_document_logged th s1 text).2.llm_model = s1.llm_model ∧
    (chunk_document_logged th s1 text).2.log = s1.log ++ chunkEvents th text :=
  ⟨rfl, rfl, rfl, rfl, rfl⟩

/-! ### Size ceiling before validation (C3) -/

/-- The chunk sequence `chunk_document` hands to the validator/merger
(steps 1-3 of the pipeline). -/
def chunks_before_validation (th : Thresholds) (full_text : Str) : List Str :=
  handle_non_order_content th full_text (identify_order_boundaries full_text)
    (extract_order_chunks th full_text (identify_order_boundaries full_text))

theorem dispatch_size {th : Thresholds} {c ct : Str}
    (hc : c ∈ (if ct.length > th.maxChunkSize then
      split_by_paragraphs ct th.maxChunkSize else [ct])) :
    c.length ≤ th.maxChunkSize ∨ subCheck sep2 c = false := by
  split at hc
  · rcases split_by_paragraphs_size ct th.maxChunkSize c hc with h | h
    · exact Or.inl h
    · exact Or.inr h.2.2
  · rename_i hle
    simp at hc
    subst hc
    omega

theorem split_large_order_size (th : Thresholds) (t num : Str) :
    ∀ c ∈ split_large_order th t num,
      c.length ≤ th.maxChunkSize ∨ subCheck sep2 c = false := by
  intro c hc
  unfold split_large_order at hc
  split at hc
  · rcases split_by_paragraphs_size t th.maxChunkSize c hc with h | h
    · exact Or.inl h
    · exact Or.inr h.2.2
  · rw [List.mem_flatten] at hc
    obtain ⟨l, hl, hcl⟩ := hc
    rw [List.mem_map] at hl
    obtain ⟨ct, _, hctl⟩ := hl
    subst hctl
    exact dispatch_size hcl

theorem sectDispatch_size (th : Thresholds) (t : Str) :
    ∀ c ∈ sectDispatch th t,
      c.length ≤ th.maxChunkSize ∨ subCheck sep2 c = false := by
  intro c hc
  unfold sectDispatch at hc
  exact dispatch_size hc

theorem sectGo_size (th : Thresholds) (text : Str) :
    ∀ ms : List RMatch, ∀ c ∈ sectGo th text ms,
      c.length ≤ th.maxChunkSize ∨ subCheck sep2 c = false := by
  intro ms
  induction ms with
  | nil => intro c hc; simp [sectGo] at hc
  | cons m rest ih =>
    intro c hc
    cases rest with
    | nil =>
      rw [show sectGo th text [m] =
        sectDispatch th (strip (pySlice m.start text.length text)) from rfl] at hc
      exact sectDispatch_size th _ c hc
    | cons m2 rest2 =>
      rw [show sectGo th text (m :: m2 :: rest2) =
        sectDispatch th (strip (pySlice m.start m2.start text)) ++
          sectGo th text (m2 :: rest2) from rfl] at hc
      rcases List.mem_append.mp hc with hc | hc
      · exact sectDispatch_size th _ c hc
      · exact ih c hc

theorem chunk_by_sections_size (th : Thresholds) (t : Str) :
    ∀ c ∈ chunk_by_sections th t,
      c.length ≤ th.maxChunkSize ∨ subCheck sep2 c = false := by
  intro c hc
  unfold chunk_by_sections at hc
  split at hc
  · rcases split_by_paragraphs_size t th.maxChunkSize c hc with h | h
    · exact Or.inl h
    · exact Or.inr h.2.2
  · rename_i m0 ms heq
    dsimp only at hc
    split at hc
    · rcases List.mem_append.mp hc with hc | hc
      · rcases split_by_paragraphs_size _ th.maxChunkSize c hc with h | h
        · exact Or.inl h
        · exact Or.inr h.2.2
      · exact sectGo_size th t (m0 :: ms) c hc
    · exact sectGo_size th t (m0 :: ms) c hc

theorem extract_order_chunks_size (th : Thresholds)
    (hth : th.ruleSplitThreshold ≤ th.maxChunkSize) (text : Str)
    (bs : List Boundary) :
    ∀ c ∈ extract_order_chunks th text bs,
      c.length ≤ th.maxChunkSize ∨ subCheck sep2 c = false := by
  intro c hc
  unfold extract_order_chunks at hc
  rw [List.mem_flatten] at hc
  obtain ⟨l, hl, hcl⟩ := hc
  rw [List.mem_map] at hl
  obtain ⟨b, _, hbl⟩ := hl
  subst hbl
  dsimp only at hcl
  split at hcl
  · exact split_large_order_size th _ _ c hcl
  · rename_i hle
    simp at hcl
    subst hcl
    omega

theorem chunks_before_validation_size (th : Thresholds)
    (hth : th.ruleSplitThreshold ≤ th.maxChunkSize) (text : Str) :
    ∀ c ∈ chunks_before_validation th text,
      c.length ≤ th.maxChunkSize ∨ subCheck sep2 c = false := by
  intro c hc
  unfold chunks_before_validation handle_non_order_content at hc
  split at hc
  · exact extract_order_chunks_size th hth text _ c hc
  · rename_i b0 bs heq
    dsimp only at hc
    split at hc
    · rcases List.mem_append.mp hc with hc | hc
      · split at hc
        · rcases List.mem_append.mp hc with hc | hc
          · exact chunk_by_sections_size th _ c hc
          · exact extract_order_chunks_size th hth text _ c hc
        · exact extract_order_chunks_size th hth text _ c hc
      · exact chunk_by_sections_size th _ c hc
    · split at hc
      · rcases List.mem_append.mp hc with hc | hc
        · exact chunk_by_sections_size th _ c hc
        · exact extract_order_chunks_size th hth text _ c hc
      · exact extract_order_chunks_size th hth text _ c hc

/-- C3 as amended: every chunk `chunk_document` returns either fits the
ceiling, or is a single paragraph (no blank-line separator inside), or is not
one of the chunks that entered the validator/merger — that is, it was
enlarged past the ceiling by the validator merging under-sized fragments. -/
theorem c3_amended_size_ceiling (th : Thresholds)
    (hth : th.ruleSplitThreshold ≤ th.maxChunkSize) (text : Str) :
    ∀ c ∈ chunk_document th text,
      c.length ≤ th.maxChunkSize ∨ subCheck sep2 c = false ∨
      c ∉ chunks_before_validation th text := by
  intro c hc
  by_cases hmem : c ∈ chunks_before_validation th text
  · rcases chunks_before_validation_size th hth text c hmem with h | h
    · exact Or.inl h
    · exact Or.inr (Or.inl h)
  · exact Or.inr (Or.inr hmem)

/-- Witness for the amended C3: a two-ORDER document at the default
thresholds; the first output chunk is below the ceiling. -/
theorem c3_amended_size_ceiling_witness :
    (("## ORDER I\nalpha text\n\n## ORDER II\nbeta text" : String).toList ∈
      chunk_document default_thresholds
        ("\n## ORDER I\nalpha text\n## ORDER II\nbeta text" : String).toList) ∧
    (RULE_SPLIT_THRESHOLD ≤ MAX_CHUNK_SIZE) ∧
    (("## ORDER I\nalpha text\n\n## ORDER II\nbeta text" :
        String).toList.length ≤ MAX_CHUNK_SIZE ∨
      subCheck sep2 ("## ORDER I\nalpha text\n\n## ORDER II\nbeta text" :
        String).toList = false ∨
      ("## ORDER I\nalpha text\n\n## ORDER II\nbeta text" : String).toList ∉
        chunks_before_validation default_thresholds
          ("\n## ORDER I\nalpha text\n## ORDER II\nbeta text" : String).toList) := by
  refine ⟨by decide, by decide, ?_⟩
  exact c3_amended_size_ceiling default_thresholds (by decide)
    ("\n## ORDER I\nalpha text\n## ORDER II\nbeta text" : String).toList
    ("## ORDER I\nalpha text\n\n## ORDER II\nbeta text" : String).toList
    (by decide)

/-! ### Symbolic evaluation of the scanners on structured documents

Kernel evaluation cannot force multi-thousand-character lists, so the
counterexamples over documents beyond `MAX_CHUNK_SIZE` are computed through
these lemmas instead: the scan skips a homogeneous run in one step, and a
match at a heading is evaluated from the combinator structure. -/

theorem finditerAux_skip_one (tryM : Str → PRes) (fuel : Nat) (c : Char)
    (rest : Str) (pos : Nat) (h : tryM (c :: rest) = none) :
    finditerAux tryM (fuel + 1) (c :: rest) pos =
      finditerAux tryM fuel rest (pos + 1) := by
  rw [finditerAux, h]

theorem finditerAux_skip_replicate (tryM : Str → PRes) (ch : Char)
    (hno : ∀ rest : Str, tryM (ch :: rest) = none) :
    ∀ (n fuel : Nat) (rest : Str) (pos : Nat),
      finditerAux tryM (n + fuel) (List.replicate n ch ++ rest) pos =
        finditerAux tryM fuel rest (pos + n) := by
  intro n
  induction n with
  | zero => intro fuel rest pos; simp
  | succ n ih =>
    intro fuel rest pos
    rw [show List.replicate (n + 1) ch ++ rest = ch :: (List.replicate n ch ++ rest)
      from by simp [List.replicate_succ]]
    rw [show n + 1 + fuel = (n + fuel) + 1 from by omega]
    rw [finditerAux_skip_one tryM (n + fuel) ch _ pos (hno _)]
    rw [ih fuel rest (pos + 1)]
    congr 1
    omega

theorem finditerAux_match_step (tryM : Str → PRes) (fuel pos : Nat) {c : Char}
    {rest rem : Str} {g1 g2 : Option Str}
    (h : tryM (c :: rest) = some (rem, g1, g2))
    (hlen : rem.length < (c :: rest).length) :
    finditerAux tryM (fuel + 1) (c :: rest) pos =
      { start := pos, stop := pos + ((c :: rest).length - rem.length),
        g1 := g1, g2 := g2 } ::
        finditerAux tryM fuel rem (pos + ((c :: rest).length - rem.length)) := by
  rw [finditerAux, h]
  simp only
  rw [if_neg (by omega)]

theorem starGreedy_stop {p : Char → Bool} {s : Str} {k : Str → PRes}
    (hs : ∀ c r, s = c :: r → p c = false) : starGreedy p s k = k s := by
  match s with
  | [] => rfl
  | c :: r =>
    rw [starGreedy, if_neg (by rw [hs c r rfl]; simp)]

theorem starGreedy_run {p : Char → Bool} {k : Str → PRes} {res} :
    ∀ (run : Str), run.all p = true → ∀ {s : Str},
      (∀ c r, s = c :: r → p c = false) → k s = some res →
      starGreedy p (run ++ s) k = some res := by
  intro run
  induction run with
  | nil =>
    intro _ s hs hk
    rw [List.nil_append, starGreedy_stop hs, hk]
  | cons c run' ih =>
    intro hall s hs hk
    simp only [List.all_cons, Bool.and_eq_true] at hall
    rw [List.cons_append, starGreedy, if_pos hall.1, ih hall.2 hs hk]

theorem plusGreedy_run {p : Char → Bool} {k : Str → PRes} {res}
    (run : Str) (hne : run ≠ []) (hall : run.all p = true) {s : Str}
    (hs : ∀ c r, s = c :: r → p c = false) (hk : k s = some res) :
    plusGreedy p (run ++ s) k = some res := by
  match run, hne with
  | c :: run', _ =>
    simp only [List.all_cons, Bool.and_eq_true] at hall
    rw [List.cons_append, plusGreedy, if_pos hall.1]
    exact starGreedy_run run' hall.2 hs hk

theorem pCh_cons {p : Char → Bool} {c : Char} {r : Str} {k : Str → PRes}
    (h : p c = true) : pCh p (c :: r) k = k r := by
  rw [pCh, if_pos h]

theorem pCh_cons_neg {p : Char → Bool} {c : Char} {r : Str} {k : Str → PRes}
    (h : p c = false) : pCh p (c :: r) k = none := by
  rw [pCh, if_neg (by simp [h])]

theorem pLitCI_run {k : Str → PRes} :
    ∀ (lit s : Str), pLitCI lit (lit ++ s) k = k s := by
  intro lit
  induction lit with
  | nil => intro s; rfl
  | cons c cs ih =>
    intro s
    rw [List.cons_append, pLitCI, pCh_cons (by simp [chEqCI])]
    exact ih s

theorem capture_append (r s : Str) : capture (r ++ s) s = r := by
  unfold capture
  rw [List.length_append]
  rw [show r.length + s.length - s.length = r.length from by omega]
  exact List.take_left r s

theorem roman_not_space {c : Char} (h : isRomanCI c = true) : isSpaceP c = false := by
  cases hs : isSpaceP c
  · rfl
  · exfalso
    simp only [isSpaceP, Bool.or_eq_true, decide_eq_true_eq] at hs
    rcases hs with ((((rfl | rfl) | rfl) | rfl) | rfl) | rfl <;>
      simp [isRomanCI] at h

/-- The heading text of one ORDER block (pattern-1 form). -/
def orderHeading (r : Str) : Str := ("\n## ORDER " : String).toList ++ r ++ ['\n']

/-- Pattern 1 matches an ORDER heading followed by non-whitespace text,
consuming exactly the heading and capturing the roman numeral. -/
theorem p1Try_heading (r : Str) (hr1 : r ≠ []) (hr2 : r.all isRomanCI = true)
    {c0 : Char} {t' : Str} (hc0 : isSpaceP c0 = false) :
    p1Try (orderHeading r ++ (c0 :: t')) = some (c0 :: t', some r, none) := by
  have hc0nl : c0 ≠ '\n' := by
    intro heq
    rw [heq] at hc0
    simp [isSpaceP] at hc0
  obtain ⟨rc, r', rfl⟩ : ∃ rc r', r = rc :: r' := by
    match r, hr1 with
    | c :: cs, _ => exact ⟨c, cs, rfl⟩
  have hrc : isRomanCI rc = true := by
    simp only [List.all_cons, Bool.and_eq_true] at hr2
    exact hr2.1
  unfold p1Try
  rw [show orderHeading (rc :: r') ++ (c0 :: t') =
    '\n' :: '#' :: '#' :: ' ' ::
      ('O' :: 'R' :: 'D' :: 'E' :: 'R' :: [] ++
        (' ' :: ((rc :: r') ++ '\n' :: (c0 :: t')))) from by
    simp [orderHeading]]
  rw [pCh_cons (by decide)]
  show plusGreedy isHashC (['#', '#'] ++ (' ' ::
      ('O' :: 'R' :: 'D' :: 'E' :: 'R' :: [] ++
        (' ' :: ((rc :: r') ++ '\n' :: (c0 :: t')))))) _ = _
  apply plusGreedy_run ['#', '#'] (by simp) (by decide)
    (fun c r h => by injection h with h1 _; rw [← h1]; decide)
  show starGreedy isSpaceP ([' '] ++
      ('O' :: 'R' :: 'D' :: 'E' :: 'R' :: [] ++
        (' ' :: ((rc :: r') ++ '\n' :: (c0 :: t'))))) _ = _
  apply starGreedy_run [' '] (by decide)
    (fun c r h => by injection h with h1 _; rw [← h1]; decide)
  rw [pLitCI_run]
  show plusGreedy isSpaceP ([' '] ++ ((rc :: r') ++ '\n' :: (c0 :: t'))) _ = _
  apply plusGreedy_run [' '] (by simp) (by decide)
    (fun c r h => by injection h with h1 _; rw [← h1]; exact roman_not_space hrc)
  apply plusGreedy_run (rc :: r') (by simp) hr2
    (fun c r h => by injection h with h1 _; rw [← h1]; decide)
  rw [starGreedy, if_pos (by decide)]
  rw [starGreedy_stop (fun c r h => by injection h with h1 _; rw [← h1]; exact hc0)]
  rw [pCh_cons_neg (by simp [hc0nl])]
  rw [pCh_cons (by decide)]
  rw [capture_append]

theorem p1Try_not_nl {c : Char} (r : Str) (h : ¬ c = '\n') : p1Try (c :: r) = none := by
  unfold p1Try
  exact pCh_cons_neg (by simp [h])

theorem finditerAux_nil (tryM : Str → PRes) (fuel pos : Nat) :
    finditerAux tryM fuel [] pos = [] := by
  cases fuel <;> rfl

/-- The 17 roman numerals of the C3 counterexample document. -/
def c3romans : List Str :=
  (["I", "II", "III", "IV", "V", "VI", "VII", "VIII", "IX", "X", "XI", "XII",
    "XIII", "XIV", "XV", "XVI", "XVII"] : List String).map String.toList

def aRun : Str := List.replicate 470 'a'

/-- One ORDER block: a pattern-1 heading followed by 470 body characters. -/
def orderBlock (r : Str) : Str := orderHeading r ++ aRun

/-- A document of 17 small ORDER blocks (about 8.2k characters in total). -/
def c3doc : Str := (c3romans.map orderBlock).flatten

/-- The stripped text of one ORDER unit of `c3doc`. -/
def orderChunk (r : Str) : Str := ("## ORDER " : String).toList ++ r ++ '\n' :: aRun

/-- The matches pattern 1 produces on a block sequence starting at `pos`. -/
def c3matches : List Str → Nat → List RMatch
  | [], _ => []
  | r :: rs, pos =>
    { start := pos, stop := pos + (11 + r.length), g1 := some r, g2 := none } ::
      c3matches rs (pos + (481 + r.length))

theorem orderHeading_length (r : Str) : (orderHeading r).length = 11 + r.length := by
  simp [orderHeading]
  omega

theorem orderBlock_length (r : Str) : (orderBlock r).length = 481 + r.length := by
  rw [orderBlock, List.length_append, orderHeading_length, aRun, List.length_replicate]
  omega

theorem scan_blocks :
    ∀ (rs : List Str) (fuel pos : Nat),
      (∀ r ∈ rs, r ≠ [] ∧ r.all isRomanCI = true) →
      finditerAux p1Try (471 * rs.length + fuel) ((rs.map orderBlock).flatten) pos =
        c3matches rs pos := by
  intro rs
  induction rs with
  | nil =>
    intro fuel pos _
    rw [show (([] : List Str).map orderBlock).flatten = [] from rfl]
    rw [finditerAux_nil]
    rfl
  | cons r rs ih =>
    intro fuel pos hval
    have hr := hval r (by simp)
    rw [show ((r :: rs).map orderBlock).flatten =
      orderBlock r ++ (rs.map orderBlock).flatten from by simp]
    rw [show orderBlock r ++ (rs.map orderBlock).flatten =
      orderHeading r ++ ('a' :: (List.replicate 469 'a' ++ (rs.map orderBlock).flatten))
      from by
        rw [orderBlock, aRun]
        rw [show (List.replicate 470 'a' : Str) = 'a' :: List.replicate 469 'a' from rfl]
        rw [List.append_assoc, List.cons_append]]
    have hmatch := @p1Try_heading r hr.1 hr.2 'a'
      (List.replicate 469 'a' ++ (rs.map orderBlock).flatten)
      (by decide)
    obtain ⟨c, tl, hform⟩ : ∃ c tl,
        orderHeading r ++ ('a' :: (List.replicate 469 'a' ++
          (rs.map orderBlock).flatten)) = c :: tl := by
      match r with
      | rc :: r' => exact ⟨'\n', _, rfl⟩
    rw [hform]
    rw [show 471 * (r :: rs).length + fuel =
      (470 + (471 * rs.length + fuel)) + 1 from by simp [List.length_cons]; ring]
    rw [finditerAux_match_step p1Try _ pos (by rw [← hform]; exact hmatch)
      (by
        rw [← hform, List.length_append, orderHeading_length]
        omega)]
    have hlen2 : (c :: tl).length -
        ('a' :: (List.replicate 469 'a' ++ (rs.map orderBlock).flatten)).length =
        11 + r.length := by
      rw [← hform, List.length_append, orderHeading_length]
      omega
    rw [hlen2]
    rw [show 'a' :: (List.replicate 469 'a' ++ (rs.map orderBlock).flatten) =
      List.replicate 470 'a' ++ (rs.map orderBlock).flatten
      from by
        rw [show (List.replicate 470 'a' : Str) = 'a' :: List.replicate 469 'a' from rfl]
        rw [List.cons_append]]
    rw [show (470 + (471 * rs.length + fuel)) = 470 + (471 * rs.length + fuel)
      from rfl]
    rw [finditerAux_skip_replicate p1Try 'a'
      (fun rest => p1Try_not_nl rest (by decide)) 470 (471 * rs.length + fuel) _ _]
    rw [ih fuel _ (fun r2 h2 => hval r2 (by simp [h2]))]
    rw [show pos + (11 + r.length) + 470 = pos + (481 + r.length) from by omega]
    rfl

theorem c3doc_length : c3doc.length = 8219 := by
  rw [c3doc, List.length_flatten, List.map_map]
  have h : List.map (List.length ∘ orderBlock) c3romans
      = List.map (fun r => 481 + r.length) c3romans :=
    List.map_congr_left (fun r _ => orderBlock_length r)
  rw [h]
  decide

theorem c3_finditer : finditer p1Try c3doc = c3matches c3romans 0 := by
  unfold finditer
  rw [c3doc_length]
  rw [show (8219 : Nat) = 471 * c3romans.length + 212 from by decide]
  exact scan_blocks c3romans 212 0 (by decide)

theorem c3_identify :
    identify_order_boundaries c3doc = mkBoundaries c3doc (c3matches c3romans 0) := by
  have hne : c3matches c3romans 0 ≠ [] := by
    rw [show c3romans = "I".toList :: c3romans.drop 1 from by decide]
    simp [c3matches]
  unfold identify_order_boundaries effectiveOrderMatches
  rw [c3_finditer, if_pos hne]

theorem strip_cons_space {c : Char} (x : Str) (hc : isSpaceP c = true) :
    strip (c :: x) = strip x := by
  unfold strip
  rw [List.dropWhile_cons_of_pos (by simp [hc])]

theorem strip_head_neg_last_a {c : Char} (x : Str) (n : Nat)
    (hc : isSpaceP c = false) :
    strip (c :: (x ++ List.replicate (n + 1) 'a')) =
      c :: (x ++ List.replicate (n + 1) 'a') := by
  unfold strip
  rw [List.dropWhile_cons_of_neg (by simp [hc])]
  have hrev : (c :: (x ++ List.replicate (n + 1) 'a')).reverse =
      'a' :: (List.replicate n 'a' ++ (x.reverse ++ [c])) := by
    rw [List.reverse_cons, List.reverse_append, List.reverse_replicate]
    rw [show (List.replicate (n + 1) 'a' : Str) = 'a' :: List.replicate n 'a' from rfl]
    simp [List.append_assoc]
  rw [hrev]
  rw [List.dropWhile_cons_of_neg (by decide)]
  rw [← hrev, List.reverse_reverse]

theorem orderBlock_decomp (r : Str) : orderBlock r = '\n' :: orderChunk r := by
  rw [orderBlock, orderHeading, orderChunk]
  rw [show ("\n## ORDER " : String).toList =
    '\n' :: ("## ORDER " : String).toList from rfl]
  simp only [List.cons_append, List.append_assoc, List.singleton_append,
    List.nil_append]

theorem orderChunk_decomp (r : Str) :
    orderChunk r = '#' :: (("# ORDER " : String).toList ++ r ++ '\n' ::
      List.replicate 470 'a') := by
  rw [orderChunk, aRun]
  rw [show ("## ORDER " : String).toList =
    '#' :: ("# ORDER " : String).toList from rfl]
  simp only [List.cons_append, List.append_assoc]

theorem strip_orderBlock (r : Str) : strip (orderBlock r) = orderChunk r := by
  rw [orderBlock_decomp, strip_cons_space _ (by decide)]
  rw [orderChunk_decomp]
  have hsh : ("# ORDER " : String).toList ++ r ++ '\n' :: List.replicate 470 'a'
      = (("# ORDER " : String).toList ++ (r ++ ['\n'])) ++
        List.replicate (469 + 1) 'a' := by
    simp only [List.append_assoc, List.singleton_append]
  rw [hsh]
  exact strip_head_neg_last_a _ 469 (by decide)

theorem orderChunk_length (r : Str) : (orderChunk r).length = 480 + r.length := by
  rw [orderChunk, aRun]
  simp only [List.length_append, List.length_cons, List.length_replicate]
  rw [show ("## ORDER " : String).toList.length = 9 from by decide]
  omega

theorem extract_cons (th : Thresholds) (text : Str) (b : Boundary)
    (bs : List Boundary) :
    extract_order_chunks th text (b :: bs) =
      (if (strip (pySlice b.start_pos b.end_pos text)).length > th.ruleSplitThreshold
        then split_large_order th (strip (pySlice b.start_pos b.end_pos text)) b.number
        else [strip (pySlice b.start_pos b.end_pos text)]) ++
      extract_order_chunks th text bs := by
  unfold extract_order_chunks
  simp

theorem take_append_of_len {α : Type} (l1 l2 : List α) (n : Nat)
    (h : l1.length = n) : (l1 ++ l2).take n = l1 := by
  subst h
  exact List.take_left l1 l2

theorem drop_append_of_len {α : Type} (l1 l2 : List α) (n : Nat)
    (h : l1.length = n) : (l1 ++ l2).drop n = l2 := by
  subst h
  exact List.drop_left l1 l2

theorem extract_blocks (rs : List Str) :
    ∀ (pos : Nat),
      (∀ r ∈ rs, r.length ≤ 4) →
      c3doc.drop pos = (rs.map orderBlock).flatten →
      pos + ((rs.map orderBlock).flatten).length = c3doc.length →
      extract_order_chunks default_thresholds c3doc
        (mkBoundaries c3doc (c3matches rs pos)) = rs.map orderChunk := by
  induction rs with
  | nil => intro pos _ _ _; rfl
  | cons r rs ih =>
    intro pos hsz hdrop hlen
    cases rs with
    | nil =>
      simp only [List.map_cons, List.map_nil, List.flatten_cons, List.flatten_nil,
        List.append_nil] at hdrop hlen
      have hb : mkBoundaries c3doc (c3matches [r] pos) =
          [boundaryOfMatch c3doc
            { start := pos, stop := pos + (11 + r.length), g1 := some r, g2 := none }
            c3doc.length] := rfl
      rw [hb, extract_cons]
      rw [show extract_order_chunks default_thresholds c3doc [] = [] from rfl,
        List.append_nil]
      rw [show (boundaryOfMatch c3doc
        { start := pos, stop := pos + (11 + r.length), g1 := some r, g2 := none }
        c3doc.length).start_pos = pos from rfl]
      rw [show (boundaryOfMatch c3doc
        { start := pos, stop := pos + (11 + r.length), g1 := some r, g2 := none }
        c3doc.length).end_pos = c3doc.length from rfl]
      unfold pySlice
      have hsub : c3doc.length - pos = (orderBlock r).length := by omega
      rw [hdrop, hsub, List.take_length, strip_orderBlock]
      rw [if_neg (by
        rw [orderChunk_length]
        rw [show default_thresholds.ruleSplitThreshold = 5000 from rfl]
        have h4 : r.length ≤ 4 := hsz r (by simp)
        omega)]
      rfl
    | cons r2 rs2 =>
      simp only [List.map_cons, List.flatten_cons] at hdrop hlen
      rw [List.length_append, orderBlock_length] at hlen
      have hstep : mkBoundaries c3doc (c3matches (r :: r2 :: rs2) pos) =
          boundaryOfMatch c3doc
            { start := pos, stop := pos + (11 + r.length), g1 := some r, g2 := none }
            (pos + (481 + r.length)) ::
            mkBoundaries c3doc (c3matches (r2 :: rs2) (pos + (481 + r.length))) := rfl
      rw [hstep, extract_cons]
      rw [show (boundaryOfMatch c3doc
        { start := pos, stop := pos + (11 + r.length), g1 := some r, g2 := none }
        (pos + (481 + r.length))).start_pos = pos from rfl]
      rw [show (boundaryOfMatch c3doc
        { start := pos, stop := pos + (11 + r.length), g1 := some r, g2 := none }
        (pos + (481 + r.length))).end_pos = pos + (481 + r.length) from rfl]
      unfold pySlice
      have hdiff : pos + (481 + r.length) - pos = 481 + r.length := by omega
      rw [hdiff, hdrop, take_append_of_len _ _ _ (orderBlock_length r),
        strip_orderBlock]
      rw [if_neg (by
        rw [orderChunk_length]
        rw [show default_thresholds.ruleSplitThreshold = 5000 from rfl]
        have h4 : r.length ≤ 4 := hsz r (by simp)
        omega)]
      rw [ih (pos + (481 + r.length))
        (fun x hx => hsz x (List.mem_cons_of_mem r hx))
        (by
          rw [← List.drop_drop, hdrop, drop_append_of_len _ _ _ (orderBlock_length r)]
          simp only [List.map_cons, List.flatten_cons])
        (by
          simp only [List.map_cons, List.flatten_cons]
          omega)]
      rfl

theorem c3_extract :
    extract_order_chunks default_thresholds c3doc (identify_order_boundaries c3doc)
      = c3romans.map orderChunk := by
  rw [c3_identify]
  exact extract_blocks c3romans 0 (by decide)
    (by rw [List.drop_zero]; rfl)
    (by rw [Nat.zero_add]; rfl)

theorem c3matches_expand : c3matches c3romans 0 =
    ({ start := 0, stop := 12, g1 := some ("I" : String).toList, g2 := none } :
      RMatch) :: c3matches (c3romans.drop 1) 482 := by
  rw [show c3romans = ("I" : String).toList :: c3romans.drop 1 from by decide]
  rfl

theorem mkBoundaries_cons_ne (text : Str) (m : RMatch) (ms : List RMatch) :
    mkBoundaries text (m :: ms) ≠ [] := by
  cases ms <;> simp [mkBoundaries]

theorem mkBoundaries_head_start (text : Str) (m : RMatch) (ms : List RMatch) :
    ∃ b, (mkBoundaries text (m :: ms)).head? = some b ∧ b.start_pos = m.start := by
  cases ms with
  | nil => exact ⟨_, rfl, rfl⟩
  | cons m2 rest => exact ⟨_, rfl, rfl⟩

theorem handle_mkBoundaries_id (th : Thresholds) (text : Str) (m : RMatch)
    (ms : List RMatch) (chunks : List Str) (h0 : m.start = 0) :
    handle_non_order_content th text (mkBoundaries text (m :: ms)) chunks = chunks := by
  have hne := mkBoundaries_cons_ne text m ms
  obtain ⟨b0, hh, hs⟩ := mkBoundaries_head_start text m ms
  cases hcase : mkBoundaries text (m :: ms) with
  | nil => exact absurd hcase hne
  | cons b bs =>
    rw [hcase] at hh
    have hb : b.start_pos = 0 := by
      simp only [List.head?_cons, Option.some.injEq] at hh
      rw [hh, hs, h0]
    have hlastb : ((b :: bs).getLast (by simp)).end_pos = text.length := by
      apply mkBoundaries_getLast text (m :: ms)
      rw [hcase]
      exact List.getLast?_eq_getLast (b :: bs) (by simp)
    unfold handle_non_order_content
    dsimp only
    rw [hb, hlastb]
    have hpre : strip (pySlice 0 0 text) = [] := rfl
    have happ : strip (pySlice text.length text.length text) = [] := by
      unfold pySlice
      rw [Nat.sub_self, List.take_zero]
      rfl
    rw [hpre, happ]
    simp

theorem strip_orderChunk (r : Str) : strip (orderChunk r) = orderChunk r := by
  rw [orderChunk_decomp]
  have hsh : ("# ORDER " : String).toList ++ r ++ '\n' :: List.replicate 470 'a'
      = (("# ORDER " : String).toList ++ (r ++ ['\n'])) ++
        List.replicate (469 + 1) 'a' := by
    simp only [List.append_assoc, List.singleton_append]
  rw [hsh]
  exact strip_head_neg_last_a _ 469 (by decide)

theorem joinSep_glue (m c : Str) (cs : List Str) :
    joinSep ((m ++ sep2 ++ c) :: cs) = m ++ sep2 ++ joinSep (c :: cs) := by
  cases cs with
  | nil => rfl
  | cons c2 cs2 =>
    rw [joinSep_cons (m ++ sep2 ++ c) (by simp), joinSep_cons c (by simp)]
    simp [List.append_assoc]

theorem vmGo_merge_run (th : Thresholds) :
    ∀ (cs : List Str) (m : Str), m ≠ [] →
      (∀ c ∈ cs, strip c ≠ [] ∧ c.length < th.minChunkSize) →
      vmGo th [] m cs = [joinSep (m :: cs)] := by
  intro cs
  induction cs with
  | nil =>
    intro m hm _
    rw [show joinSep [m] = m from rfl]
    rw [vmGo, if_pos hm, flushMerge, if_neg (by simp)]
    rfl
  | cons c cs ih =>
    intro m hm hall
    obtain ⟨hc1, hc2⟩ := hall c (List.mem_cons_self c cs)
    rw [vmGo, if_neg (by simpa using hc1), if_pos hc2, if_neg hm]
    rw [ih (m ++ sep2 ++ c) (by simp [sep2]) (fun x hx => hall x (List.mem_cons_of_mem c hx))]
    rw [joinSep_glue, joinSep_cons m (by simp)]

theorem validate_all_small (th : Thresholds) (c : Str) (cs : List Str)
    (hall : ∀ x ∈ c :: cs, strip x ≠ [] ∧ x.length < th.minChunkSize) :
    validate_and_merge_chunks th (c :: cs) = [joinSep (c :: cs)] := by
  obtain ⟨hc1, hc2⟩ := hall c (List.mem_cons_self c cs)
  have hcne : c ≠ [] := by
    intro h
    rw [h] at hc1
    exact hc1 rfl
  unfold validate_and_merge_chunks
  rw [vmGo, if_neg (by simpa using hc1), if_pos hc2, if_pos rfl]
  exact vmGo_merge_run th cs c hcne (fun x hx => hall x (List.mem_cons_of_mem c hx))

theorem c3_chunks_small :
    ∀ x ∈ c3romans.map orderChunk,
      strip x ≠ [] ∧ x.length < default_thresholds.minChunkSize := by
  intro x hx
  obtain ⟨r, hr, rfl⟩ := List.mem_map.1 hx
  constructor
  · rw [strip_orderChunk, orderChunk_decomp]
    exact List.cons_ne_nil _ _
  · rw [orderChunk_length]
    have h4 : ∀ y ∈ c3romans, List.length y ≤ 4 := by decide
    have := h4 r hr
    rw [show default_thresholds.minChunkSize = 500 from rfl]
    omega

theorem c3_validate :
    validate_and_merge_chunks default_thresholds (c3romans.map orderChunk)
      = [joinSep (c3romans.map orderChunk)] := by
  have hexp : c3romans.map orderChunk
      = orderChunk ("I" : String).toList :: (c3romans.drop 1).map orderChunk := by
    rw [show c3romans = ("I" : String).toList :: c3romans.drop 1 from by decide]
    rfl
  rw [hexp,
    validate_all_small default_thresholds _ _ (by rw [← hexp]; exact c3_chunks_small),
    ← hexp]

theorem c3_identify_ne : identify_order_boundaries c3doc ≠ [] := by
  rw [c3_identify, c3matches_expand]
  exact mkBoundaries_cons_ne c3doc _ _

theorem c3_chunk_document :
    chunk_document default_thresholds c3doc = [joinSep (c3romans.map orderChunk)] := by
  unfold chunk_document
  dsimp only
  rw [if_neg c3_identify_ne, c3_extract, c3_identify, c3matches_expand]
  rw [handle_mkBoundaries_id default_thresholds c3doc _ _ _ rfl]
  exact c3_validate

theorem joinSep_length :
    ∀ (cs : List Str) (c : Str),
      (joinSep (c :: cs)).length =
        c.length + (cs.map List.length).sum + 2 * cs.length := by
  intro cs
  induction cs with
  | nil => intro c; simp [joinSep]
  | cons c2 cs2 ih =>
    intro c
    rw [joinSep_cons c (by simp)]
    simp only [List.length_append, List.map_cons, List.sum_cons, List.length_cons]
    rw [ih c2]
    rw [show sep2.length = 2 from rfl]
    omega

theorem c3_final_length : (joinSep (c3romans.map orderChunk)).length = 8234 := by
  have hexp : c3romans.map orderChunk
      = orderChunk ("I" : String).toList :: (c3romans.drop 1).map orderChunk := by
    rw [show c3romans = ("I" : String).toList :: c3romans.drop 1 from by decide]
    rfl
  rw [hexp, joinSep_length, orderChunk_length, List.map_map]
  have h : List.map (List.length ∘ orderChunk) (c3romans.drop 1)
      = List.map (fun r => 480 + r.length) (c3romans.drop 1) :=
    List.map_congr_left (fun r _ => orderChunk_length r)
  rw [h]
  simp only [List.length_map]
  decide

theorem c3_subCheck : subCheck sep2 (joinSep (c3romans.map orderChunk)) = true := by
  have hexp : c3romans.map orderChunk
      = orderChunk ("I" : String).toList :: (c3romans.drop 1).map orderChunk := by
    rw [show c3romans = ("I" : String).toList :: c3romans.drop 1 from by decide]
    rfl
  rw [hexp, joinSep_cons _ (by
    rw [show c3romans.drop 1 = ("II" : String).toList :: c3romans.drop 2 from by decide]
    simp)]
  exact subCheck_append_right _ (subCheck_append_left _ (by decide))

/-- C3 counterexample: on a document of seventeen small consecutive ORDER
sections (8219 characters in total) the pipeline emits a single merged chunk
of 8234 characters, exceeding MAX_CHUNK_SIZE = 8000, and that chunk does
contain a paragraph break, so the merged size is not explained by an
unbreakable paragraph. -/
theorem c3_counterexample :
    chunk_document default_thresholds c3doc = [joinSep (c3romans.map orderChunk)] ∧
    default_thresholds.maxChunkSize < (joinSep (c3romans.map orderChunk)).length ∧
    subCheck sep2 (joinSep (c3romans.map orderChunk)) = true :=
  ⟨c3_chunk_document, by rw [c3_final_length]; decide, c3_subCheck⟩

/-! ### C4: context prefixing by the rule splitter -/

theorem prefixCheck_self : ∀ s : Str, prefixCheck s s = true := by
  intro s
  induction s with
  | nil => rfl
  | cons a as ih => simp [prefixCheck, ih]

theorem subCheck_of_prefixCheck {pat s : Str} (h : prefixCheck pat s = true) :
    subCheck pat s = true := by
  cases s with
  | nil => exact h
  | cons c rest =>
    rw [subCheck, h]
    rfl

theorem subCheck_pre_append (pat rest : Str) : subCheck pat (pat ++ rest) = true :=
  subCheck_of_prefixCheck (prefixCheck_append rest (prefixCheck_self pat))

theorem subCheck_replicate_ne (c : Char) (p : Str) (ch : Char) (hne : ¬ c = ch) :
    ∀ n : Nat, subCheck (c :: p) (List.replicate n ch) = false := by
  intro n
  induction n with
  | zero => rfl
  | succ n ih =>
    rw [show List.replicate (n + 1) ch = ch :: List.replicate n ch from rfl]
    rw [subCheck, ih]
    simp [prefixCheck, hne]

theorem pCh_none_of (p : Char → Bool) (k : Str → PRes) (Q : Str → Prop)
    (hQ : ∀ c r, Q (c :: r) → Q r) (hk : ∀ t, Q t → k t = none) :
    ∀ s, Q s → pCh p s k = none := by
  intro s hs
  cases s with
  | nil => rfl
  | cons c r =>
    rw [pCh]
    by_cases hp : p c
    · rw [if_pos hp]
      exact hk r (hQ c r hs)
    · rw [if_neg hp]

theorem starGreedy_none_of (p : Char → Bool) (k : Str → PRes) (Q : Str → Prop)
    (hQ : ∀ c r, Q (c :: r) → Q r) (hk : ∀ t, Q t → k t = none) :
    ∀ s, Q s → starGreedy p s k = none := by
  intro s
  induction s with
  | nil => intro hs; exact hk [] hs
  | cons c r ih =>
    intro hs
    rw [starGreedy]
    by_cases hp : p c
    · rw [if_pos hp, ih (hQ c r hs), hk (c :: r) hs]
    · rw [if_neg hp]
      exact hk (c :: r) hs

theorem plusGreedy_none_of (p : Char → Bool) (k : Str → PRes) (Q : Str → Prop)
    (hQ : ∀ c r, Q (c :: r) → Q r) (hk : ∀ t, Q t → k t = none) :
    ∀ s, Q s → plusGreedy p s k = none := by
  intro s hs
  cases s with
  | nil => rfl
  | cons c r =>
    rw [plusGreedy]
    by_cases hp : p c
    · rw [if_pos hp]
      exact starGreedy_none_of p k Q hQ hk r (hQ c r hs)
    · rw [if_neg hp]

theorem optGreedy_none_of (sub : Str → (Str → PRes) → PRes) (s : Str)
    (k : Str → PRes) (hsub : sub s k = none) (hk : k s = none) :
    optGreedy sub s k = none := by
  rw [optGreedy, hsub, hk]

theorem optGreedy_skip (sub : Str → (Str → PRes) → PRes) (s : Str)
    (k : Str → PRes) (hsub : sub s k = none) :
    optGreedy sub s k = k s := by
  rw [optGreedy, hsub]

theorem optGreedy_take (sub : Str → (Str → PRes) → PRes) (s : Str)
    (k : Str → PRes) {res} (hsub : sub s k = some res) :
    optGreedy sub s k = some res := by
  rw [optGreedy, hsub]

theorem plusGreedy_cons_pos {p : Char → Bool} {c : Char} {r : Str}
    {k : Str → PRes} (h : p c = true) :
    plusGreedy p (c :: r) k = starGreedy p r k := by
  rw [plusGreedy, if_pos h]

theorem plusGreedy_cons_neg {p : Char → Bool} {c : Char} {r : Str}
    {k : Str → PRes} (h : p c = false) :
    plusGreedy p (c :: r) k = none := by
  rw [plusGreedy, if_neg (by simp [h])]

/-- No character of the text is an `R` (case-insensitively). -/
def noR (t : Str) : Prop := t.all (fun c => !(chEqCI c 'R')) = true

theorem noR_tail : ∀ (c : Char) (r : Str), noR (c :: r) → noR r := by
  intro c r h
  unfold noR at h ⊢
  simp only [List.all_cons, Bool.and_eq_true] at h
  exact h.2

theorem noR_head : ∀ (c : Char) (r : Str), noR (c :: r) → chEqCI c 'R' = false := by
  intro c r h
  unfold noR at h
  simp only [List.all_cons, Bool.and_eq_true] at h
  simpa using h.1

theorem pLit_rule_none (k : Str → PRes) :
    ∀ t, noR t → pLitCI ('R' :: 'u' :: 'l' :: 'e' :: []) t k = none := by
  intro t ht
  cases t with
  | nil => rfl
  | cons c r =>
    rw [pLitCI]
    exact pCh_cons_neg (noR_head c r ht)

theorem ruleTry_noR (s : Str) (hs : noR s) : ruleTry s = none := by
  unfold ruleTry
  refine pCh_none_of _ _ noR noR_tail ?_ s hs
  intro t ht
  refine starGreedy_none_of _ _ noR noR_tail ?_ t ht
  intro u hu
  refine optGreedy_none_of _ _ _ ?_ ?_
  · refine plusGreedy_none_of _ _ noR noR_tail ?_ u hu
    intro v hv
    refine optGreedy_none_of _ _ _ ?_ ?_
    · refine pCh_none_of _ _ noR noR_tail ?_ v hv
      intro w hw
      exact plusGreedy_none_of _ _ noR noR_tail (fun x hx => pLit_rule_none _ x hx) w hw
    · exact plusGreedy_none_of _ _ noR noR_tail (fun x hx => pLit_rule_none _ x hx) v hv
  · exact pLit_rule_none _ u hu

theorem ruleTry_not_nl {c : Char} (r : Str) (h : ¬ c = '\n') :
    ruleTry (c :: r) = none := by
  unfold ruleTry
  exact pCh_cons_neg (by simp [h])

theorem finditerAux_none_of (tryM : Str → PRes) (Q : Str → Prop)
    (hQ : ∀ c r, Q (c :: r) → Q r) (hfail : ∀ t, Q t → tryM t = none) :
    ∀ (fuel : Nat) (s : Str) (pos : Nat), Q s → finditerAux tryM fuel s pos = [] := by
  intro fuel
  induction fuel with
  | zero => intro s pos _; cases s <;> rfl
  | succ fuel ih =>
    intro s pos hs
    cases s with
    | nil => rfl
    | cons c r =>
      rw [finditerAux, hfail (c :: r) hs]
      exact ih r (pos + 1) (hQ c r hs)

def c4a : Str := List.replicate 4000 'a'

def c4b : Str := List.replicate 4000 'b'

/-- Body of the oversized ORDER unit of the C4 counterexample: two 4000-char
paragraphs. -/
def c4tail : Str := c4a ++ sep2 ++ c4b

/-- The oversized ORDER unit text handed to the rule splitter in the C4
counterexample (8022 characters). -/
def c4text : Str := ("## ORDER I\nRule 1.\n\n" : String).toList ++ c4tail

theorem capture_self (s : Str) : capture s s = [] := by
  unfold capture
  rw [Nat.sub_self]
  exact List.take_zero s

theorem c4tail_head : c4tail = 'a' :: ((List.replicate 3999 'a' ++ sep2) ++ c4b) := by
  rw [c4tail, c4a,
    show (List.replicate 4000 'a' : Str) = 'a' :: List.replicate 3999 'a' from rfl]
  simp only [List.cons_append]

theorem c4tail_not_space : ∀ (c : Char) (r : Str), c4tail = c :: r →
    isSpaceP c = false := by
  intro c r h
  rw [c4tail_head] at h
  injection h with h1 _
  rw [← h1]
  decide

theorem ruleTry_c4 :
    ruleTry ('\n' :: 'R' :: 'u' :: 'l' :: 'e' :: ' ' :: '1' :: '.' :: '\n' :: '\n' ::
        c4tail)
      = some (c4tail, none, some ['1']) := by
  unfold ruleTry
  rw [pCh_cons (by decide)]
  rw [starGreedy_stop (fun c r h => by injection h with h1 _; rw [← h1]; decide)]
  rw [optGreedy]
  rw [plusGreedy_cons_neg (by decide)]
  show pLitCI ('R' :: 'u' :: 'l' :: 'e' :: [])
    (('R' :: 'u' :: 'l' :: 'e' :: []) ++ (' ' :: '1' :: '.' :: '\n' :: '\n' :: c4tail))
    _ = _
  rw [pLitCI_run]
  show plusGreedy isSpaceP ([' '] ++ ('1' :: '.' :: '\n' :: '\n' :: c4tail)) _ = _
  apply plusGreedy_run [' '] (by simp) (by decide)
    (fun c r h => by injection h with h1 _; rw [← h1]; decide)
  show plusGreedy isDigitP (['1'] ++ ('.' :: '\n' :: '\n' :: c4tail)) _ = _
  apply plusGreedy_run ['1'] (by simp) (by decide)
    (fun c r h => by injection h with h1 _; rw [← h1]; decide)
  show optGreedy (pCh isLetterAZCI) ('.' :: '\n' :: '\n' :: c4tail) _ = _
  rw [optGreedy_skip _ _ _ (pCh_cons_neg (by decide))]
  rw [starGreedy_stop (fun c r h => by injection h with h1 _; rw [← h1]; decide)]
  rw [optGreedy]
  rw [pCh_cons (by decide)]
  have hcap : capture ('1' :: '.' :: '\n' :: '\n' :: c4tail)
      ('.' :: '\n' :: '\n' :: c4tail) = ['1'] := by
    rw [show ('1' :: '.' :: '\n' :: '\n' :: c4tail : Str)
      = ['1'] ++ ('.' :: '\n' :: '\n' :: c4tail) from rfl]
    exact capture_append ['1'] _
  simp only [capture_self, hcap]
  rw [show ('\n' :: '\n' :: c4tail : Str) = ['\n', '\n'] ++ c4tail from rfl]
  rw [starGreedy_run ['\n', '\n'] (by decide) c4tail_not_space rfl]
  rfl

theorem finditerAux_skip_notnl (tryM : Str → PRes)
    (hno : ∀ (c : Char) (rest : Str), ¬ c = '\n' → tryM (c :: rest) = none) :
    ∀ (xs : Str), xs.all (fun c => !(c = '\n')) = true →
    ∀ (fuel : Nat) (rest : Str) (pos : Nat),
      finditerAux tryM (xs.length + fuel) (xs ++ rest) pos =
        finditerAux tryM fuel rest (pos + xs.length) := by
  intro xs
  induction xs with
  | nil => intro _ fuel rest pos; simp
  | cons c xs ih =>
    intro hall fuel rest pos
    simp only [List.all_cons, Bool.and_eq_true, Bool.not_eq_true', decide_eq_false_iff_not]
      at hall
    rw [List.cons_append]
    rw [show (c :: xs).length + fuel = (xs.length + fuel) + 1 from by
      simp only [List.length_cons]; omega]
    rw [finditerAux_skip_one _ _ _ _ _ (hno c (xs ++ rest) hall.1)]
    rw [ih (by simpa using hall.2) fuel rest (pos + 1)]
    rw [show pos + 1 + xs.length = pos + (c :: xs).length from by
      simp only [List.length_cons]; omega]

theorem c4text_length : c4text.length = 8022 := by
  rw [c4text, List.length_append]
  rw [show (("## ORDER I\nRule 1.\n\n" : String).toList).length = 20 from by decide]
  rw [c4tail, List.length_append, List.length_append, c4a, c4b]
  simp only [List.length_replicate]
  rw [show sep2.length = 2 from rfl]

theorem c4tail_noR : noR c4tail := by
  unfold noR
  rw [c4tail]
  simp only [List.all_append, Bool.and_eq_true]
  refine ⟨⟨?_, by decide⟩, ?_⟩
  · rw [c4a]
    rw [show (4000 : Nat) = 3999 + 1 from rfl]
    induction (3999 : Nat) with
    | zero => decide
    | succ n ih => rw [List.replicate_succ, List.all_cons, ih]; decide
  · rw [c4b]
    rw [show (4000 : Nat) = 3999 + 1 from rfl]
    induction (3999 : Nat) with
    | zero => decide
    | succ n ih => rw [List.replicate_succ, List.all_cons, ih]; decide

theorem c4_finditer : finditer ruleTry c4text =
    [{ start := 10, stop := 20, g1 := none, g2 := some ['1'] }] := by
  unfold finditer
  rw [c4text_length]
  rw [show c4text = ("## ORDER I" : String).toList ++
    ('\n' :: 'R' :: 'u' :: 'l' :: 'e' :: ' ' :: '1' :: '.' :: '\n' :: '\n' :: c4tail)
    from by rw [c4text]; rfl]
  rw [show (8022 : Nat) = ("## ORDER I" : String).toList.length + 8012 from by decide]
  rw [finditerAux_skip_notnl ruleTry (fun c rest h => ruleTry_not_nl rest h) _
    (by decide) 8012 _ 0]
  rw [show (8012 : Nat) = 8011 + 1 from rfl]
  rw [finditerAux_match_step ruleTry 8011 _ ruleTry_c4 (by
    simp only [List.length_cons]
    omega)]
  rw [finditerAux_none_of ruleTry noR noR_tail ruleTry_noR 8011 c4tail _ c4tail_noR]
  have hlen10 : ('\n' :: 'R' :: 'u' :: 'l' :: 'e' :: ' ' :: '1' :: '.' :: '\n' :: '\n' ::
      c4tail).length - c4tail.length = 10 := by
    simp only [List.length_cons]
    omega
  rw [hlen10]
  rw [show (0 : Nat) + ("## ORDER I" : String).toList.length = 10 from by decide]

def c4H : Str := ("## ORDER I" : String).toList

def c4R : Str := ("Rule 1." : String).toList

/-- The first chunk the paragraph re-split of the C4 counterexample emits. -/
def c4first : Str := c4H ++ sep2 ++ c4R ++ sep2 ++ c4a

theorem strip_head_neg_last_ch {c ch : Char} (x : Str) (n : Nat)
    (hc : isSpaceP c = false) (hch : isSpaceP ch = false) :
    strip (c :: (x ++ List.replicate (n + 1) ch)) =
      c :: (x ++ List.replicate (n + 1) ch) := by
  unfold strip
  rw [List.dropWhile_cons_of_neg (by simp [hc])]
  have hrev : (c :: (x ++ List.replicate (n + 1) ch)).reverse =
      ch :: (List.replicate n ch ++ (x.reverse ++ [c])) := by
    rw [List.reverse_cons, List.reverse_append, List.reverse_replicate]
    rw [show (List.replicate (n + 1) ch : Str) = ch :: List.replicate n ch from rfl]
    simp [List.append_assoc]
  rw [hrev]
  rw [List.dropWhile_cons_of_neg (by simp [hch])]
  rw [← hrev, List.reverse_reverse]

theorem all_replicate_of (ch : Char) (p : Char → Bool) (hp : p ch = true) :
    ∀ n, (List.replicate n ch).all p = true := by
  intro n
  induction n with
  | zero => rfl
  | succ n ih => rw [List.replicate_succ, List.all_cons, hp, ih]; rfl

theorem strip_c4a : strip c4a = c4a := by
  rw [c4a,
    show (List.replicate 4000 'a' : Str) = 'a' :: ([] ++ List.replicate (3998 + 1) 'a')
      from rfl]
  exact strip_head_neg_last_ch [] 3998 (by decide) (by decide)

theorem strip_c4b : strip c4b = c4b := by
  rw [c4b,
    show (List.replicate 4000 'b' : Str) = 'b' :: ([] ++ List.replicate (3998 + 1) 'b')
      from rfl]
  exact strip_head_neg_last_ch [] 3998 (by decide) (by decide)

theorem splitSepAux_nl_free :
    ∀ (x : Str), x.all (fun c => !(c = '\n')) = true →
      ∀ (acc y : Str),
        splitSepAux acc (x ++ ('\n' :: '\n' :: y)) = (acc.reverse ++ x) :: splitSep y := by
  intro x
  induction x with
  | nil =>
    intro _ acc y
    rw [List.nil_append]
    rw [show splitSepAux acc ('\n' :: '\n' :: y) = acc.reverse :: splitSepAux [] y
      from rfl]
    rw [List.append_nil]
    rfl
  | cons c x ih =>
    intro hall acc y
    simp only [List.all_cons, Bool.and_eq_true, Bool.not_eq_true',
      decide_eq_false_iff_not] at hall
    rw [List.cons_append]
    rw [splitSepAux_step acc c _ (fun r1 hc _ => hall.1 hc)]
    rw [ih (by simpa using hall.2) (c :: acc) y]
    simp [List.append_assoc]

theorem splitSepAux_nl_free_end :
    ∀ (y : Str), y.all (fun c => !(c = '\n')) = true →
      ∀ acc, splitSepAux acc y = [acc.reverse ++ y] := by
  intro y
  induction y with
  | nil => intro _ acc; rw [show splitSepAux acc [] = [acc.reverse] from rfl]; simp
  | cons c y ih =>
    intro hall acc
    simp only [List.all_cons, Bool.and_eq_true, Bool.not_eq_true',
      decide_eq_false_iff_not] at hall
    rw [splitSepAux_step acc c _ (fun r1 hc _ => hall.1 hc)]
    rw [ih (by simpa using hall.2) (c :: acc)]
    simp [List.append_assoc]

theorem splitSep_nl_free_cons (x y : Str) (hx : x.all (fun c => !(c = '\n')) = true) :
    splitSep (x ++ ('\n' :: '\n' :: y)) = x :: splitSep y := by
  unfold splitSep
  rw [splitSepAux_nl_free x hx [] y]
  simp [splitSep]

theorem splitSep_nl_free_end (y : Str) (hy : y.all (fun c => !(c = '\n')) = true) :
    splitSep y = [y] := by
  unfold splitSep
  rw [splitSepAux_nl_free_end y hy []]
  simp

theorem c4tail_length : c4tail.length = 8002 := by
  rw [c4tail, List.length_append, List.length_append, c4a, c4b]
  simp only [List.length_replicate]
  rw [show sep2.length = 2 from rfl]

theorem strip_c4H : strip c4H = c4H := by decide

theorem strip_c4R : strip c4R = c4R := by decide

theorem c4_header : strip (pySlice 0 10 c4text) = c4H := by
  unfold pySlice
  rw [List.drop_zero]
  rw [show c4text = c4H ++
    ('\n' :: 'R' :: 'u' :: 'l' :: 'e' :: ' ' :: '1' :: '.' :: '\n' :: '\n' :: c4tail)
    from by rw [c4text, c4H]; rfl]
  rw [show (10 : Nat) - 0 = 10 from rfl]
  rw [take_append_of_len _ _ 10 (by decide)]
  exact strip_c4H

theorem c4_rule_text : strip (pySlice 10 c4text.length c4text) =
    c4R ++ ('\n' :: '\n' :: (c4a ++ ('\n' :: '\n' :: c4b))) := by
  unfold pySlice
  rw [c4text_length]
  rw [show c4text = c4H ++
    ('\n' :: 'R' :: 'u' :: 'l' :: 'e' :: ' ' :: '1' :: '.' :: '\n' :: '\n' :: c4tail)
    from by rw [c4text, c4H]; rfl]
  rw [drop_append_of_len _ _ 10 (by decide)]
  rw [show (8022 : Nat) - 10 = 8012 from rfl]
  have hslen : ('\n' :: 'R' :: 'u' :: 'l' :: 'e' :: ' ' :: '1' :: '.' :: '\n' :: '\n' ::
      c4tail).length = 8012 := by
    simp only [List.length_cons, c4tail_length]
  rw [← hslen, List.take_length]
  rw [strip_cons_space _ (by decide)]
  rw [show ('R' :: 'u' :: 'l' :: 'e' :: ' ' :: '1' :: '.' :: '\n' :: '\n' :: c4tail : Str)
    = 'R' :: (('u' :: 'l' :: 'e' :: ' ' :: '1' :: '.' :: '\n' :: '\n' :: (c4a ++ sep2)) ++
        List.replicate (3999 + 1) 'b') from by
      rw [c4tail, c4b, show (4000 : Nat) = 3999 + 1 from rfl]
      simp only [List.cons_append, List.append_assoc]]
  rw [strip_head_neg_last_ch _ 3999 (by decide) (by decide)]
  rw [show c4R = 'R' :: 'u' :: 'l' :: 'e' :: ' ' :: '1' :: '.' :: [] from rfl]
  rw [c4b, show (4000 : Nat) = 3999 + 1 from rfl]
  simp only [sep2, List.cons_append, List.append_assoc, List.nil_append]

theorem c4_effective : effectiveRuleMatches c4text =
    [{ start := 10, stop := 20, g1 := none, g2 := some ['1'] }] := by
  unfold effectiveRuleMatches
  dsimp only
  rw [c4_finditer]
  rw [if_pos (by simp)]

/-- The single chunk_text the rule splitter assembles on the C4 document. -/
def c4chunk : Str :=
  c4H ++ sep2 ++ (c4R ++ ('\n' :: '\n' :: (c4a ++ ('\n' :: '\n' :: c4b))))

theorem c4_chunk_texts : rule_chunk_texts c4text ("I" : String).toList = [c4chunk] := by
  unfold rule_chunk_texts
  rw [c4_effective]
  dsimp only
  rw [c4_header]
  rw [show ruleChunkTextsGo c4text ("I" : String).toList c4H true
    [{ start := 10, stop := 20, g1 := none, g2 := some ['1'] }] =
    [ruleChunkOf ("I" : String).toList c4H true
      (strip (pySlice 10 c4text.length c4text))] from rfl]
  rw [c4_rule_text]
  rw [ruleChunkOf, if_pos rfl]
  rw [c4chunk]

theorem c4chunk_length : c4chunk.length = 8023 := by
  rw [c4chunk]
  simp only [List.length_append, List.length_cons, c4a, c4b, List.length_replicate]
  rw [show c4H.length = 10 from by decide, show c4R.length = 7 from by decide,
    show sep2.length = 2 from rfl]

theorem psGo_cons (max_size : Nat) (cur p0 : Str) (ps : List Str) :
    psGo max_size cur (p0 :: ps) =
      (let p := strip p0
       if p = [] then psGo max_size cur ps
       else if cur.length + p.length + 2 ≤ max_size then
         psGo max_size (if cur = [] then p else cur ++ sep2 ++ p) ps
       else (if cur ≠ [] then [cur] else []) ++ psGo max_size p ps) := rfl

theorem psGo_last (max_size : Nat) (cur : Str) :
    psGo max_size cur [] = if cur ≠ [] then [cur] else [] := rfl

set_option maxRecDepth 4000 in
theorem c4_split_paras : split_by_paragraphs c4chunk 8000 = [c4first, c4b] := by
  unfold split_by_paragraphs
  rw [show c4chunk = c4H ++
    ('\n' :: '\n' :: (c4R ++ ('\n' :: '\n' :: (c4a ++ ('\n' :: '\n' :: c4b)))))
    from by rw [c4chunk]; simp only [sep2, List.cons_append, List.append_assoc,
      List.nil_append]]
  rw [splitSep_nl_free_cons _ _ (by decide)]
  rw [splitSep_nl_free_cons _ _ (by decide)]
  rw [splitSep_nl_free_cons _ _ (by
    rw [c4a]
    exact all_replicate_of 'a' (fun c => !(c = '\n')) (by decide) 4000)]
  rw [splitSep_nl_free_end _ (by
    rw [c4b]
    exact all_replicate_of 'b' (fun c => !(c = '\n')) (by decide) 4000)]
  rw [psGo_cons]
  dsimp only
  rw [strip_c4H, if_neg (by decide), if_pos (by decide), if_pos rfl]
  rw [psGo_cons]
  dsimp only
  rw [strip_c4R, if_neg (by decide), if_pos (by decide), if_neg (by decide)]
  have hca : List.length c4a = 4000 := by rw [c4a]; exact List.length_replicate 4000 'a'
  have hcb : List.length c4b = 4000 := by rw [c4b]; exact List.length_replicate 4000 'b'
  have hH : c4H = '#' :: ("# ORDER I" : String).toList := rfl
  rw [psGo_cons]
  dsimp only
  have hane : c4a ≠ [] := by
    rw [c4a, show (4000 : Nat) = 3999 + 1 from rfl, List.replicate_succ]
    exact List.cons_ne_nil _ _
  rw [strip_c4a, if_neg hane,
    if_pos (by
      rw [show List.length (c4H ++ sep2 ++ c4R) = 19 from by decide, hca]
      decide),
    if_neg (by rw [hH]; simp)]
  rw [psGo_cons]
  dsimp only
  have hbne : c4b ≠ [] := by
    rw [c4b, show (4000 : Nat) = 3999 + 1 from rfl, List.replicate_succ]
    exact List.cons_ne_nil _ _
  rw [strip_c4b,
    if_neg hbne,
    if_neg (by
      rw [List.length_append, hca, hcb,
        show List.length (c4H ++ sep2 ++ c4R ++ sep2) = 21 from by decide]
      decide),
    if_pos (by rw [hH]; simp),
    psGo_last, if_pos hbne]
  rw [c4first]
  rfl

theorem c4_split_large :
    split_large_order default_thresholds c4text ("I" : String).toList =
      [c4first, c4b] := by
  unfold split_large_order
  rw [if_neg (by rw [c4_effective]; simp)]
  rw [c4_chunk_texts]
  simp only [List.map_cons, List.map_nil, List.flatten_cons, List.flatten_nil,
    List.append_nil]
  rw [if_pos (by
    rw [c4chunk_length, show default_thresholds.maxChunkSize = 8000 from rfl]
    decide)]
  rw [show default_thresholds.maxChunkSize = 8000 from rfl]
  exact c4_split_paras

theorem ruleChunkOf_sub (num header : Str) (first : Bool) (rt : Str) :
    subCheck header (ruleChunkOf num header first rt) = true ∨
    subCheck (contLine num) (ruleChunkOf num header first rt) = true := by
  cases first with
  | true =>
    left
    rw [ruleChunkOf, if_pos rfl]
    exact subCheck_append_right _ (subCheck_pre_append header sep2)
  | false =>
    right
    rw [ruleChunkOf, if_neg (by simp)]
    exact subCheck_append_right _ (subCheck_pre_append _ sep2)

theorem ruleChunkTextsGo_mem (t num header : Str) :
    ∀ (l : List RMatch) (first : Bool) (c : Str),
      c ∈ ruleChunkTextsGo t num header first l →
      subCheck header c = true ∨ subCheck (contLine num) c = true := by
  intro l
  induction l with
  | nil => intro first c hc; simp [ruleChunkTextsGo] at hc
  | cons m rest ih =>
    intro first c hc
    cases rest with
    | nil =>
      rw [show ruleChunkTextsGo t num header first [m] =
        [ruleChunkOf num header first (strip (pySlice m.start t.length t))] from rfl]
        at hc
      rw [List.mem_singleton] at hc
      rw [hc]
      exact ruleChunkOf_sub num header first _
    | cons m2 rest2 =>
      rw [show ruleChunkTextsGo t num header first (m :: m2 :: rest2) =
        ruleChunkOf num header first (strip (pySlice m.start m2.start t)) ::
          ruleChunkTextsGo t num header false (m2 :: rest2) from rfl] at hc
      rcases List.mem_cons.mp hc with hc | hc
      · rw [hc]
        exact ruleChunkOf_sub num header first _
      · exact ih false c hc

theorem rule_chunk_texts_mem (t num c : Str) (hc : c ∈ rule_chunk_texts t num) :
    (∃ m0 ms, effectiveRuleMatches t = m0 :: ms ∧
      subCheck (strip (pySlice 0 m0.start t)) c = true) ∨
    subCheck (contLine num) c = true := by
  cases h : effectiveRuleMatches t with
  | nil =>
    have heq : rule_chunk_texts t num = [] := by
      unfold rule_chunk_texts
      rw [h]
    rw [heq] at hc
    simp at hc
  | cons m0 ms =>
    have heq : rule_chunk_texts t num =
        ruleChunkTextsGo t num (strip (pySlice 0 m0.start t)) true (m0 :: ms) := by
      unfold rule_chunk_texts
      rw [h]
    rw [heq] at hc
    rcases ruleChunkTextsGo_mem t num _ (m0 :: ms) true c hc with hl | hr
    · exact Or.inl ⟨m0, ms, rfl, hl⟩
    · exact Or.inr hr

/-- C4: every chunk the rule splitter emits either contains the unit's header
text (the stripped span before the first sub-boundary), or contains the
synthetic continuation line naming the unit, or is not one of the assembled
chunk_texts at all — i.e. it came out of the paragraph re-split of an
oversized chunk_text, which restores neither prefix. -/
theorem c4_amended_context_prefix (th : Thresholds) (t num c : Str)
    (_hc : c ∈ split_large_order th t num) :
    (∃ m0 ms, effectiveRuleMatches t = m0 :: ms ∧
      subCheck (strip (pySlice 0 m0.start t)) c = true) ∨
    subCheck (contLine num) c = true ∨
    c ∉ rule_chunk_texts t num := by
  by_cases hmem : c ∈ rule_chunk_texts t num
  · rcases rule_chunk_texts_mem t num c hmem with h | h
    · exact Or.inl h
    · exact Or.inr (Or.inl h)
  · exact Or.inr (Or.inr hmem)

/-- C4 counterexample: an 8022-character ORDER unit with one Rule boundary
yields one 8023-character chunk_text, which the paragraph re-split breaks into
two chunks; the second chunk (4000 b-chars) contains neither the unit's
header line nor the "ORDER I (continued)" marker, refuting the unamended
claim. -/
theorem c4_counterexample :
    effectiveRuleMatches c4text ≠ [] ∧
    split_large_order default_thresholds c4text ("I" : String).toList =
      [c4first, c4b] ∧
    subCheck c4H c4b = false ∧
    subCheck (contLine ("I" : String).toList) c4b = false := by
  refine ⟨by rw [c4_effective]; simp, c4_split_large, ?_, ?_⟩
  · rw [c4b, show c4H = '#' :: ("# ORDER I" : String).toList from rfl]
    exact subCheck_replicate_ne '#' _ 'b' (by decide) 4000
  · rw [c4b, show contLine ("I" : String).toList =
      'O' :: ("RDER I (continued)" : String).toList from by decide]
    exact subCheck_replicate_ne 'O' _ 'b' (by decide) 4000

theorem c4_amended_context_prefix_witness :
    ("x\n\nRule 1. alpha beta" : String).toList ∈
      split_large_order default_thresholds ("x\nRule 1. alpha beta" : String).toList
        ("I" : String).toList ∧
    ((∃ m0 ms,
        effectiveRuleMatches ("x\nRule 1. alpha beta" : String).toList = m0 :: ms ∧
        subCheck (strip (pySlice 0 m0.start ("x\nRule 1. alpha beta" : String).toList))
          ("x\n\nRule 1. alpha beta" : String).toList = true) ∨
      subCheck (contLine ("I" : String).toList)
        ("x\n\nRule 1. alpha beta" : String).toList = true ∨
      ("x\n\nRule 1. alpha beta" : String).toList ∉
        rule_chunk_texts ("x\nRule 1. alpha beta" : String).toList
          ("I" : String).toList) :=
  ⟨by decide, c4_amended_context_prefix default_thresholds
    ("x\nRule 1. alpha beta" : String).toList ("I" : String).toList
    ("x\n\nRule 1. alpha beta" : String).toList (by decide)⟩

/-! ### C2: whitespace-normalized reproduction of the input -/

theorem pySlice_append (a b c : Nat) (t : Str) (h1 : a ≤ b) (h2 : b ≤ c) :
    pySlice a b t ++ pySlice b c t = pySlice a c t := by
  unfold pySlice
  rw [show t.drop b = (t.drop a).drop (b - a) from by
    rw [List.drop_drop]
    rw [show a + (b - a) = b from by omega]]
  rw [show c - a = (b - a) + (c - b) from by omega]
  rw [List.take_add]

theorem nwConcat_cons (x : Str) (xs : List Str) :
    nwConcat (x :: xs) = nw x ++ nwConcat xs := by
  simp [nwConcat]

theorem nwConcat_append (xs ys : List Str) :
    nwConcat (xs ++ ys) = nwConcat xs ++ nwConcat ys := by
  simp [nwConcat]

theorem nwConcat_single (x : Str) : nwConcat [x] = nw x := by
  simp [nwConcat]

theorem nw_sep2 : nw sep2 = [] := rfl

theorem appendToLast_nw : ∀ (v : List Str) (m : Str),
    nwConcat (appendToLast v m) = nwConcat v ++ nw m := by
  intro v
  induction v with
  | nil => intro m; simp [appendToLast, nwConcat]
  | cons x v ih =>
    intro m
    cases v with
    | nil =>
      rw [show appendToLast [x] m = [x ++ sep2 ++ m] from rfl]
      rw [nwConcat_single, nw_append, nw_append, nw_sep2, nwConcat_single]
      simp
    | cons y rest =>
      rw [show appendToLast (x :: y :: rest) m = x :: appendToLast (y :: rest) m
        from rfl]
      rw [nwConcat_cons, ih m]
      simp only [nwConcat_cons, List.append_assoc]

theorem flushMerge_nw (th : Thresholds) (v : List Str) (m : Str) :
    nwConcat (flushMerge th v m) = nwConcat v ++ nw m := by
  unfold flushMerge
  split
  · exact appendToLast_nw v m
  · rw [nwConcat_append, nwConcat_single]

theorem nw_of_strip_nil {c : Str} (h : strip c = []) : nw c = [] := by
  exact nw_eq_nil_of_all_space ((strip_eq_nil_iff c).mp h)

theorem vmGo_nw (th : Thresholds) :
    ∀ (cs : List Str) (validated : List Str) (merge : Str),
      nwConcat (vmGo th validated merge cs) =
        nwConcat validated ++ nw merge ++ nwConcat cs := by
  intro cs
  induction cs with
  | nil =>
    intro validated merge
    rw [vmGo]
    split
    · rw [flushMerge_nw]
      simp [nwConcat]
    · rename_i hm
      simp only [ne_eq, not_not] at hm
      subst hm
      simp [nwConcat, nw]
  | cons c cs ih =>
    intro validated merge
    rw [vmGo]
    split
    · rename_i hstrip
      rw [ih validated merge, nwConcat_cons, nw_of_strip_nil hstrip]
      simp [List.append_assoc]
    · split
      · rw [ih]
        have hmerge : nw (if merge = [] then c else merge ++ sep2 ++ c) =
            nw merge ++ nw c := by
          split
          · rename_i hm
            subst hm
            rfl
          · rw [nw_append, nw_append, nw_sep2]
            simp
        rw [hmerge, nwConcat_cons]
        simp [List.append_assoc]
      · rw [ih]
        have hval : nwConcat ((if merge ≠ [] then flushMerge th validated merge
            else validated) ++ [c]) = nwConcat validated ++ nw merge ++ nw c := by
          rw [nwConcat_append, nwConcat_single]
          split
          · rw [flushMerge_nw]
          · rename_i hm
            simp only [ne_eq, not_not] at hm
            subst hm
            simp [nw]
        rw [hval, nwConcat_cons]
        simp [nw, List.append_assoc]

theorem validate_nw (th : Thresholds) (chunks : List Str) :
    nwConcat (validate_and_merge_chunks th chunks) = nwConcat chunks := by
  unfold validate_and_merge_chunks
  rw [vmGo_nw]
  simp [nwConcat, nw]

theorem effective_chain (text : Str) :
    List.Chain' (fun a b => a.stop ≤ b.start ∧ a.start < b.start)
      (effectiveOrderMatches text) := by
  unfold effectiveOrderMatches
  simp only []
  split
  · exact finditerAux_chain p1Try text.length text 0
  · split
    · exact finditerAux_chain p2Try text.length text 0
    · exact finditerAux_chain p3Try text.length text 0

theorem effective_mem_le (text : Str) :
    ∀ m ∈ effectiveOrderMatches text, m.start ≤ text.length := by
  intro m hm
  unfold effectiveOrderMatches at hm
  simp only [] at hm
  have hfin : ∀ tryM, m ∈ finditerAux tryM text.length text 0 → m.start ≤ text.length := by
    intro tryM h
    obtain ⟨_, h2, h3⟩ := finditerAux_mem_le tryM text.length text 0 m h
    omega
  split at hm
  · exact hfin p1Try hm
  · split at hm
    · exact hfin p2Try hm
    · exact hfin p3Try hm

theorem mkBoundaries_start_le_end (text : Str) :
    ∀ (ms : List RMatch),
      List.Chain' (fun a b => a.stop ≤ b.start ∧ a.start < b.start) ms →
      (∀ m ∈ ms, m.start ≤ text.length) →
      ∀ b ∈ mkBoundaries text ms, b.start_pos ≤ b.end_pos := by
  intro ms
  induction ms with
  | nil => intro _ _ b hb; simp [mkBoundaries] at hb
  | cons m rest ih =>
    intro hch hmem b hb
    cases rest with
    | nil =>
      rw [show mkBoundaries text [m] = [boundaryOfMatch text m text.length] from rfl]
        at hb
      rw [List.mem_singleton] at hb
      subst hb
      exact hmem m (List.mem_cons_self m [])
    | cons m2 rest2 =>
      rw [show mkBoundaries text (m :: m2 :: rest2) =
        boundaryOfMatch text m m2.start :: mkBoundaries text (m2 :: rest2) from rfl]
        at hb
      rcases List.mem_cons.mp hb with hb | hb
      · subst hb
        have := (List.chain'_cons.mp hch).1
        show m.start ≤ m2.start
        omega
      · exact ih (List.chain'_cons.mp hch).2
          (fun x hx => hmem x (List.mem_cons_of_mem m hx)) b hb

theorem chain_head_le_last :
    ∀ (bs : List Boundary) (b : Boundary),
      List.Chain' (fun a b2 => a.end_pos = b2.start_pos) (b :: bs) →
      (∀ x ∈ b :: bs, x.start_pos ≤ x.end_pos) →
      b.start_pos ≤ ((b :: bs).getLast (by simp)).end_pos := by
  intro bs
  induction bs with
  | nil =>
    intro b _ hle
    exact hle b (List.mem_cons_self b [])
  | cons b2 bs2 ih =>
    intro b hch hle
    rw [List.getLast_cons (by simp)]
    have h1 : b.start_pos ≤ b.end_pos := hle b (List.mem_cons_self b _)
    have h2 : b.end_pos = b2.start_pos := (List.chain'_cons.mp hch).1
    have h3 := ih b2 (List.chain'_cons.mp hch).2
      (fun x hx => hle x (List.mem_cons_of_mem b hx))
    omega

theorem extract_nw (th : Thresholds) (text : Str) :
    ∀ (bs : List Boundary) (b : Boundary),
      List.Chain' (fun a b2 => a.end_pos = b2.start_pos) (b :: bs) →
      (∀ x ∈ b :: bs, x.start_pos ≤ x.end_pos) →
      (∀ x ∈ b :: bs,
        (strip (pySlice x.start_pos x.end_pos text)).length ≤ th.ruleSplitThreshold) →
      nwConcat (extract_order_chunks th text (b :: bs)) =
        nw (pySlice b.start_pos ((b :: bs).getLast (by simp)).end_pos text) := by
  intro bs
  induction bs with
  | nil =>
    intro b _ _ hsz
    rw [extract_cons, if_neg (by
      have := hsz b (List.mem_cons_self b [])
      omega)]
    rw [show extract_order_chunks th text [] = [] from rfl, List.append_nil]
    rw [nwConcat_single, nw_strip]
    rfl
  | cons b2 bs2 ih =>
    intro b hch hle hsz
    rw [extract_cons, if_neg (by
      have := hsz b (List.mem_cons_self b _)
      omega)]
    rw [nwConcat_append, nwConcat_single, nw_strip]
    rw [ih b2 (List.chain'_cons.mp hch).2
      (fun x hx => hle x (List.mem_cons_of_mem b hx))
      (fun x hx => hsz x (List.mem_cons_of_mem b hx))]
    have hgl : (b :: b2 :: bs2).getLast (by simp) = (b2 :: bs2).getLast (by simp) :=
      List.getLast_cons (by simp)
    rw [hgl]
    have h2 : b.end_pos = b2.start_pos := (List.chain'_cons.mp hch).1
    rw [← h2]
    rw [← nw_append]
    rw [pySlice_append b.start_pos b.end_pos (((b2 :: bs2).getLast (by simp)).end_pos)
      text (hle b (List.mem_cons_self b _))
      (by
        rw [h2]
        exact chain_head_le_last bs2 b2 (List.chain'_cons.mp hch).2
          (fun x hx => hle x (List.mem_cons_of_mem b hx)))]

theorem handle_id_of_small (th : Thresholds) (text : Str) (b0 : Boundary)
    (bs : List Boundary) (chunks : List Str)
    (hpre : (strip (pySlice 0 b0.start_pos text)).length ≤ 100)
    (hlast : ((b0 :: bs).getLast (by simp)).end_pos = text.length) :
    handle_non_order_content th text (b0 :: bs) chunks = chunks := by
  unfold handle_non_order_content
  dsimp only
  rw [hlast]
  have happ : strip (pySlice text.length text.length text) = [] := by
    unfold pySlice
    rw [Nat.sub_self, List.take_zero]
    rfl
  rw [happ]
  rw [if_neg (by simp)]
  rw [if_neg (fun h => absurd h.2 (by omega))]

/-- C2: on the boundary-free fallback path the concatenated chunks reproduce
the whole document modulo whitespace; when boundaries are found, the chunks
reproduce — modulo whitespace — exactly the document from the first
boundary onward (shown here for documents whose preamble has stripped length
at most 100, which the code discards as noise, and whose per-ORDER spans stay
within the rule-split threshold, so that no synthetic continuation lines are
inserted).  The preamble span itself is dropped, not reproduced. -/
theorem c2_amended_no_loss (th : Thresholds) (text : Str) :
    (identify_order_boundaries text = [] →
      nwConcat (chunk_document th text) = nw text) ∧
    (∀ b0 bs, identify_order_boundaries text = b0 :: bs →
      (strip (pySlice 0 b0.start_pos text)).length ≤ 100 →
      (∀ b ∈ b0 :: bs,
        (strip (pySlice b.start_pos b.end_pos text)).length ≤ th.ruleSplitThreshold) →
      nwConcat (chunk_document th text) =
        nw (pySlice b0.start_pos text.length text)) := by
  constructor
  · intro hb
    unfold chunk_document
    rw [if_pos hb]
    exact split_by_paragraphs_nw text 1000
  · intro b0 bs hb hpre hsz
    have hlast : ((b0 :: bs).getLast (by simp)).end_pos = text.length := by
      apply mkBoundaries_getLast text (effectiveOrderMatches text)
      rw [show mkBoundaries text (effectiveOrderMatches text) =
        identify_order_boundaries text from rfl, hb]
      exact List.getLast?_eq_getLast _ (by simp)
    have hchain0 : List.Chain' (fun a b => a.start_pos < b.start_pos ∧
        a.end_pos = b.start_pos) (b0 :: bs) := by
      rw [← hb]
      exact mkBoundaries_chain text _ (effective_chain text)
    have hchain : List.Chain' (fun a b2 => a.end_pos = b2.start_pos) (b0 :: bs) :=
      List.Chain'.imp (fun a b h => h.2) hchain0
    have hle : ∀ x ∈ b0 :: bs, x.start_pos ≤ x.end_pos := by
      intro x hx
      apply mkBoundaries_start_le_end text (effectiveOrderMatches text)
        (effective_chain text) (effective_mem_le text) x
      rw [show mkBoundaries text (effectiveOrderMatches text) =
        identify_order_boundaries text from rfl, hb]
      exact hx
    unfold chunk_document
    rw [hb]
    rw [if_neg (by simp)]
    rw [handle_id_of_small th text b0 bs _ hpre hlast]
    rw [validate_nw]
    rw [extract_nw th text bs b0 hchain hle hsz]
    rw [hlast]

/-- C2 counterexample: a document with a 13-character preamble before its
single ORDER heading.  The preamble span is dropped (its stripped length is
at most 100), no chunk contains a synthetic continuation line that stripping
could remove, and the whitespace-normalized concatenation of the output does
not reproduce the input. -/
theorem c2_counterexample :
    ("preamble text\n## ORDER I\nbody text" : String).toList ≠ [] ∧
    (∀ c ∈ chunk_document default_thresholds
        (("preamble text\n## ORDER I\nbody text" : String).toList),
      subCheck ((" (continued)" : String).toList) c = false) ∧
    nwConcat (chunk_document default_thresholds
        (("preamble text\n## ORDER I\nbody text" : String).toList)) ≠
      nw (("preamble text\n## ORDER I\nbody text" : String).toList) := by
  refine ⟨by decide, by decide, by decide⟩

/-- The single boundary the detector finds on the C2 witness document. -/
def c2wb : Boundary :=
  { number := ("I" : String).toList, title := [], start_pos := 2, end_pos := 18,
    full_heading := ("## ORDER I" : String).toList }

theorem c2_amended_no_loss_witness :
    identify_order_boundaries (("hi\n## ORDER I\nbody" : String).toList) =
      c2wb :: [] ∧
    (strip (pySlice 0 c2wb.start_pos
      (("hi\n## ORDER I\nbody" : String).toList))).length ≤ 100 ∧
    nwConcat (chunk_document default_thresholds
        (("hi\n## ORDER I\nbody" : String).toList)) =
      nw (pySlice c2wb.start_pos (("hi\n## ORDER I\nbody" : String).toList).length
        (("hi\n## ORDER I\nbody" : String).toList)) :=
  ⟨by decide, by decide,
    (c2_amended_no_loss default_thresholds
      (("hi\n## ORDER I\nbody" : String).toList)).2 c2wb [] (by decide) (by decide)
      (by decide)⟩
